import Mathlib

/-!
Verification of the leakage-safe feature/label pipeline and walk-forward
validation engine of the smart-research-trader backend.

Each Python function under scrutiny is shallowly embedded as a Lean
definition over exact arithmetic:

* calendar dates and datetimes become `Int` day numbers (numpy datetime
  arithmetic with `pd.Timedelta(days = k)` becomes integer subtraction);
* floating point values become `Rat`; pandas missing values (`NaN`) become
  `Option Rat` with `none` for missing;
* a pandas frame becomes a list of records;
* a Python function that can raise becomes an `Except` value.

Definitions follow the structure of the Python source line by line; the
file and line of the source are recorded in each doc comment.
-/

namespace SRT

/-- Decidable equality of results, used to evaluate the embedding on
concrete inputs. -/
instance {ε α : Type} [DecidableEq ε] [DecidableEq α] :
    DecidableEq (Except ε α) := fun x y =>
  match x, y with
  | .error a, .error b =>
    if h : a = b then isTrue (by rw [h])
    else isFalse (by intro he; cases he; exact h rfl)
  | .error _, .ok _ => isFalse (by intro he; cases he)
  | .ok _, .error _ => isFalse (by intro he; cases he)
  | .ok a, .ok b =>
    if h : a = b then isTrue (by rw [h])
    else isFalse (by intro he; cases he; exact h rfl)

/-! ### Embedding of `src/backend/src/ml/timesplit.py` -/

/-- The `np.sort(dates_arr)` step of `expanding_window_split`
(`timesplit.py` line 49), embedded as insertion sort. -/
def sortDates (dates : List Int) : List Int :=
  dates.insertionSort (· ≤ ·)

/-- Test window size, `timesplit.py` lines 62-64:
`test_window_size = int(n_samples * test_size)` raised to 1 when below 1.
Python `int` truncates toward zero; the truncation only differs from the
floor on negative products, and every value below 1 is replaced by 1, so
`Int.toNat` composed with the floor is an exact embedding for every
`testSize`. -/
def testWindowSize (n : Nat) (testSize : Rat) : Nat :=
  max 1 (Int.toNat ⌊(n : Rat) * testSize⌋)

/-- Step between successive test windows, `timesplit.py` lines 70-71:
`step = max(1, (n_samples - test_window_size) // n_splits)`.  When the
subtraction is negative in Python the floor quotient is negative and the
`max` yields 1, exactly as truncated `Nat` subtraction followed by `Nat`
division does. -/
def stepSize (n tw nSplits : Nat) : Nat :=
  max 1 ((n - tw) / nSplits)

/-- `test_end_idx = min(n_samples, test_window_size + (i + 1) * step)`
(`timesplit.py` line 75). -/
def testEndIdx (n tw step i : Nat) : Nat :=
  min n (tw + (i + 1) * step)

/-- `test_start_idx = max(0, test_end_idx - test_window_size)`
(`timesplit.py` line 76); truncated `Nat` subtraction is exactly the
`max 0` clamp. -/
def testStartIdx (n tw step i : Nat) : Nat :=
  testEndIdx n tw step i - tw

/-- `test_start_date = dates_sorted[test_start_idx]` (`timesplit.py`
line 83). -/
def testStartDate (d : List Int) (tw step i : Nat) : Int :=
  d.getD (testStartIdx d.length tw step i) 0

/-- `test_end_date = dates_sorted[test_end_idx - 1]` (`timesplit.py`
line 84). -/
def testEndDate (d : List Int) (tw step i : Nat) : Int :=
  d.getD (testEndIdx d.length tw step i - 1) 0

/-- `train_end_date` (`timesplit.py` lines 86-90): the test start date
minus the embargo, or minus one day when the embargo is zero. -/
def trainEndDate (d : List Int) (embargoDays tw step i : Nat) : Int :=
  if 0 < embargoDays then testStartDate d tw step i - embargoDays
  else testStartDate d tw step i - 1

/-- `train_indices = np.where(train_mask)[0]` (`timesplit.py` lines
93-94): positions of sorted dates at or before the train cutoff. -/
def trainIdxAt (d : List Int) (embargoDays tw step i : Nat) : List Nat :=
  (List.range d.length).filter fun j =>
    decide (d.getD j 0 ≤ trainEndDate d embargoDays tw step i)

/-- `test_indices = np.where(test_mask)[0]` (`timesplit.py` lines 97-98):
positions of sorted dates between the test start and end dates. -/
def testIdxAt (d : List Int) (tw step i : Nat) : List Nat :=
  (List.range d.length).filter fun j =>
    decide (testStartDate d tw step i ≤ d.getD j 0 ∧
      d.getD j 0 ≤ testEndDate d tw step i)

/-- One iteration of the fold loop of `expanding_window_split`
(`timesplit.py` lines 73-107) over the sorted date list `d`.  Returns
`none` when the fold is skipped (empty train or empty test; the
`test_end_idx > n_samples` guard of line 79 is also embedded although the
preceding `min` makes it unreachable). -/
def foldAt (d : List Int) (embargoDays tw step : Nat) (i : Nat) :
    Option (List Nat × List Nat) :=
  if testEndIdx d.length tw step i > d.length then none
  else if trainIdxAt d embargoDays tw step i = [] ∨ testIdxAt d tw step i = []
    then none
  else some (trainIdxAt d embargoDays tw step i, testIdxAt d tw step i)

/-- The folds surviving the skip logic, in fold-index order: the content of
the `splits` list after the loop of `timesplit.py` lines 73-107. -/
def survivingFolds (dates : List Int) (nSplits embargoDays : Nat)
    (testSize : Rat) : List (List Nat × List Nat) :=
  (List.range nSplits).filterMap
    (foldAt (sortDates dates) embargoDays
      (testWindowSize (sortDates dates).length testSize)
      (stepSize (sortDates dates).length
        (testWindowSize (sortDates dates).length testSize) nSplits))

/-- `expanding_window_split` (`timesplit.py` lines 12-120).  The two
`raise ValueError` sites (lines 52-56 and 115-116) become `Except.error`.
The `seed` argument only feeds `np.random.seed` and influences nothing, so
it is dropped from the embedding. -/
def expanding_window_split (dates : List Int) (nSplits embargoDays : Nat)
    (testSize : Rat) : Except String (List (List Nat × List Nat)) :=
  if (sortDates dates).length < nSplits + 1 then
    .error "Not enough samples"
  else if survivingFolds dates nSplits embargoDays testSize = [] then
    .error "No valid splits generated"
  else .ok (survivingFolds dates nSplits embargoDays testSize)


/-! ### Embedding of `src/backend/src/ml/labeling.py` -/

/-- One price record: `(ticker, dt, close)` with tickers coded as naturals
(`labeling.py` lines 41-48 select exactly these three columns). -/
structure PriceRow where
  tk : Nat
  dt : Int
  close : Rat
deriving DecidableEq, Repr, Inhabited

/-- One output record of `compute_forward_returns`:
`(ticker, dt, label_ret_{H}d)`. -/
structure LabelRow where
  tk : Nat
  dt : Int
  label : Rat
deriving DecidableEq, Repr, Inhabited

/-- The row order of `df.sort_values(["ticker", "dt"])` (`labeling.py`
line 49): lexicographic on ticker then date. -/
def priceLE (a b : PriceRow) : Prop :=
  a.tk < b.tk ∨ (a.tk = b.tk ∧ a.dt ≤ b.dt)

instance : DecidableRel priceLE := fun a b =>
  decidable_of_iff (a.tk < b.tk ∨ (a.tk = b.tk ∧ a.dt ≤ b.dt)) Iff.rfl

instance : IsTotal PriceRow priceLE :=
  ⟨by intro a b; unfold priceLE; omega⟩

instance : IsTrans PriceRow priceLE :=
  ⟨by intro a b c; unfold priceLE; omega⟩

/-- `df.sort_values(["ticker", "dt"])` (`labeling.py` line 49). -/
def sortPrices (l : List PriceRow) : List PriceRow :=
  l.insertionSort priceLE

/-- The value of `df.groupby("ticker")["close"].shift(-H)` at row `j` of
the frame `s` (`labeling.py` line 53).  Pandas computes the shift within
the group of rows sharing row `j`'s ticker and aligns it back to the
original positions: the shifted value at row `j` is the close of the entry
`H` places after `j`'s own position inside that group, where `j`'s
position in its group is the number of earlier same-ticker rows. -/
def shiftedClose (s : List PriceRow) (H j : Nat) : Option Rat :=
  match s.get? j with
  | none => none
  | some r =>
    ((s.filter fun x => decide (x.tk = r.tk)).get?
      ((s.take j).countP (fun x => decide (x.tk = r.tk)) + H)).map
      (fun x => x.close)

/-- Row `j` of the label assignment and `dropna` steps (`labeling.py`
lines 52-56): `close[t+H] / close[t] - 1` where defined, dropped
otherwise. -/
def rowLabel (s : List PriceRow) (H j : Nat) : Option LabelRow :=
  match s.get? j, shiftedClose s H j with
  | some r, some c => some ⟨r.tk, r.dt, c / r.close - 1⟩
  | _, _ => none

/-- `compute_forward_returns` (`labeling.py` lines 15-58): sort by
`(ticker, dt)`, compute the grouped forward shift, form the label column
and drop the rows with no forward data. -/
def computeForwardReturns (l : List PriceRow) (H : Nat) : List LabelRow :=
  (List.range (sortPrices l).length).filterMap (rowLabel (sortPrices l) H)

/-- Date order on price rows, for the specification-side series. -/
def dtLE (a b : PriceRow) : Prop := a.dt ≤ b.dt

instance : DecidableRel dtLE := fun a b =>
  decidable_of_iff (a.dt ≤ b.dt) Iff.rfl

instance : IsTotal PriceRow dtLE := ⟨by intro a b; unfold dtLE; omega⟩

instance : IsTrans PriceRow dtLE := ⟨by intro a b c; unfold dtLE; omega⟩

/-- Strict date order on price rows. -/
def dtLT (a b : PriceRow) : Prop := a.dt < b.dt

instance : IsAntisymm PriceRow dtLT :=
  ⟨fun _ _ h1 h2 => absurd h1 (by unfold dtLT at *; omega)⟩

/-- The spec-side view of one instrument: its own rows sorted by date. -/
def tickerSeries (l : List PriceRow) (T : Nat) : List PriceRow :=
  (l.filter fun x => decide (x.tk = T)).insertionSort dtLE

/-- Labels the specification prescribes for an ordered single-instrument
series `g`: one label `close[t+H] / close[t] - 1` for each position `t`
that has an `H`-step successor, nothing for the trailing `H` rows. -/
def seriesLabels (g : List PriceRow) (H : Nat) (T : Nat) : List LabelRow :=
  (List.range (g.length - H)).map fun t =>
    ⟨T, (g.getD t default).dt,
      (g.getD (t + H) default).close / (g.getD t default).close - 1⟩

/-- The labels the specification prescribes for instrument `T`. -/
def specForwardLabels (l : List PriceRow) (T : Nat) (H : Nat) :
    List LabelRow :=
  seriesLabels (tickerSeries l T) H T

/-! ### Embedding of `src/backend/src/data/features/fundamentals.py`
(as-of join) and `src/backend/src/core/config.py` -/

/-- One fundamentals record: `(ticker, asof, value columns)`
(`fundamentals.py` line 20).  The value columns are kept abstract as a
list of rationals. -/
structure FundRow where
  tk : Nat
  asof : Int
  vals : List Rat
deriving DecidableEq, Repr, Inhabited

/-- The fundamentals frame: its value-column names (everything except
`ticker` and `asof`, which the join keys on or drops) and its rows. -/
structure FundFrame where
  cols : List String
  rows : List FundRow
deriving DecidableEq, Repr

/-- The fixed fundamentals schema emitted when no fundamentals exist at
all (`fundamentals.py` lines 31-35). -/
def fundamentalCols : List String :=
  ["pe", "pb", "ev_ebitda", "roe", "roce", "de_ratio",
   "eps_g3y", "rev_g3y", "profit_g3y", "opm", "npm",
   "div_yield", "promoter_hold", "pledged_pct"]

/-- `Settings.FUND_FFILL_DAYS` default (`config.py` line 43). -/
def FUND_FFILL_DAYS : Nat := 120

/-- Row order of `trading_days_df.sort_values(["ticker", "dt"])`
(`fundamentals.py` line 48). -/
def tdLE (a b : Nat × Int) : Prop :=
  a.1 < b.1 ∨ (a.1 = b.1 ∧ a.2 ≤ b.2)

instance : DecidableRel tdLE := fun a b =>
  decidable_of_iff (a.1 < b.1 ∨ (a.1 = b.1 ∧ a.2 ≤ b.2)) Iff.rfl

instance : IsTotal (Nat × Int) tdLE := ⟨by intro a b; unfold tdLE; omega⟩

instance : IsTrans (Nat × Int) tdLE := ⟨by intro a b c; unfold tdLE; omega⟩

/-- Keep the later snapshot; on equal as-of dates keep the one seen
later, as `pd.merge_asof` takes the last matching row. -/
def pickLater (acc : Option FundRow) (f : FundRow) : Option FundRow :=
  match acc with
  | none => some f
  | some g => if g.asof ≤ f.asof then some f else some g

/-- The snapshots `pd.merge_asof` may match to `(tk, dt)` with
`direction="backward"` and an inclusive tolerance of `tol` days
(`fundamentals.py` lines 52-60): same ticker, as-of date not after the
trading date, gap at most `tol`. -/
def asofCandidates (fnd : List FundRow) (tk : Nat) (dt : Int) (tol : Nat) :
    List FundRow :=
  fnd.filter fun f => decide (f.tk = tk ∧ f.asof ≤ dt ∧ dt - f.asof ≤ tol)

/-- The snapshot `pd.merge_asof` attaches: the candidate with the
greatest as-of date, or `none` when no candidate exists. -/
def asofPick (fnd : List FundRow) (tk : Nat) (dt : Int) (tol : Nat) :
    Option FundRow :=
  (asofCandidates fnd tk dt tol).foldl pickLater none

/-- The joined frame: the fundamentals columns present in the output and
one optional attached snapshot per trading row. -/
structure AsofResult where
  cols : List String
  rows : List (Nat × Int × Option FundRow)
deriving DecidableEq, Repr

/-- `asof_join_fundamentals` (`fundamentals.py` lines 13-66): empty
trading days are returned as-is; an empty fundamentals frame yields the
fixed all-missing schema of lines 31-39; otherwise both inputs are sorted
and `pd.merge_asof` attaches the latest snapshot within the staleness
tolerance `Settings.FUND_FFILL_DAYS`, and the redundant `asof` column is
dropped. -/
def asof_join_fundamentals (trading : List (Nat × Int)) (fnd : FundFrame) :
    AsofResult :=
  if trading = [] then { cols := [], rows := [] }
  else if fnd.rows = [] then
    { cols := fundamentalCols,
      rows := trading.map fun p => (p.1, p.2, none) }
  else
    { cols := fnd.cols,
      rows := (trading.insertionSort tdLE).map fun p =>
        (p.1, p.2, asofPick fnd.rows p.1 p.2 FUND_FFILL_DAYS) }


/-! ### Embedding of `get_composite_weights`
(`src/backend/src/core/config.py` lines 52-70) -/

/-- Python values produced by `json.loads`. -/
inductive JVal where
  | obj (fields : List (String × JVal))
  | arr (items : List JVal)
  | str (s : String)
  | num (q : Rat)
  | jbool (b : Bool)
  | null

/-- Outcome of `json.loads(settings.COMPOSITE_WEIGHTS)`: either the
`json.JSONDecodeError` the `except` clause catches, or a parsed value.
Parsed objects are represented with their final key-value pairs (Python
keeps the last duplicate key). -/
inductive ParseOutcome where
  | decodeError
  | parsed (v : JVal)

/-- The uncaught Python exception the function can raise. -/
inductive PyError where
  | attributeError
deriving DecidableEq, Repr

/-- Python `weights.get(key, 0.25)` (`config.py` lines 63-66): dictionary
lookup with default on an object, `AttributeError` on anything else. -/
def jsonGet (v : JVal) (key : String) (dflt : JVal) : Except PyError JVal :=
  match v with
  | .obj fields => .ok ((fields.lookup key).getD dflt)
  | _ => .error .attributeError

/-- The documented default: an equal split over the four dimensions
(`config.py` line 70). -/
def defaultWeights : List (String × JVal) :=
  [("quality", .num (1/4)), ("valuation", .num (1/4)),
   ("momentum", .num (1/4)), ("sentiment", .num (1/4))]

/-- `get_composite_weights` (`config.py` lines 52-70) as a function of
the parse outcome of the configured weight string.  Only
`json.JSONDecodeError` is caught; the `AttributeError` raised by `.get`
on a non-dictionary propagates. -/
def get_composite_weights (cfg : ParseOutcome) :
    Except PyError (List (String × JVal)) :=
  match cfg with
  | .decodeError => .ok defaultWeights
  | .parsed v =>
    match jsonGet v "quality" (.num (1/4)), jsonGet v "valuation" (.num (1/4)),
        jsonGet v "momentum" (.num (1/4)),
        jsonGet v "sentiment" (.num (1/4)) with
    | .ok q, .ok va, .ok m, .ok s =>
      .ok [("quality", q), ("valuation", va), ("momentum", m),
           ("sentiment", s)]
    | _, _, _, _ => .error .attributeError

/-- Whether a JSON value is an object, hence a valid shape for the weight
configuration. -/
def isJsonObj : JVal → Bool
  | .obj _ => true
  | _ => false

/-- A malformed composite-weight configuration: the string fails to
decode, or decodes to something other than a JSON object. -/
def malformedConfig : ParseOutcome → Prop
  | .decodeError => True
  | .parsed v => isJsonObj v = false


/-! ### Embedding of `LGBMForecaster.predict_with_std`
(`src/backend/src/ml/model_lgbm.py` lines 203-239) -/

/-- Sum of a list of rationals, as `np.sum` style left fold. -/
def listSum (l : List Rat) : Rat := l.foldl (· + ·) 0

/-- `np.mean` over a nonempty list (population mean). -/
def listMean (l : List Rat) : Rat := listSum l / l.length

/-- `np.std` squared: the population variance (`ddof = 0`). -/
def popVariance (l : List Rat) : Rat :=
  listSum (l.map fun x => (x - listMean l) ^ 2) / l.length

/-- `np.std`: the square root of the population variance. -/
noncomputable def listStd (l : List Rat) : Real :=
  Real.sqrt ((popVariance l : Rat) : Real)

/-- `self.model.predict(X, num_iteration=i)` for one fixed input row:
the boosting prediction after `i` iterations, the base score plus the sum
of the first `i` trees' contributions on that row.  A trained model is
represented by its base score and the per-tree contributions `trees` on
the row; `best_iteration` is passed as `B`. -/
def predictAtIteration (base : Rat) (trees : List Rat) (i : Nat) : Rat :=
  base + listSum (trees.take i)

/-- The iteration counts of the loop
`for i in range(max(1, self.best_iteration - n_trees_to_use),
self.best_iteration + 1)` with `n_trees_to_use = min(n_trees,
self.best_iteration)` (`model_lgbm.py` lines 226-229). -/
def usedIterations (B K : Nat) : List Nat :=
  List.range' (max 1 (B - min K B)) (B + 1 - max 1 (B - min K B))

/-- `predict_with_std` (`model_lgbm.py` lines 203-239) on one input row:
the mean and standard deviation across the collected per-iteration
predictions.  The Python default for `n_trees` is `K = 50`. -/
noncomputable def predict_with_std (base : Rat) (trees : List Rat)
    (B K : Nat) : Rat × Real :=
  (listMean ((usedIterations B K).map (predictAtIteration base trees)),
   listStd ((usedIterations B K).map (predictAtIteration base trees)))

/-- The uncertainty the claim describes: the standard deviation of the
outputs of the last `min K B` trees of the ensemble, each evaluated
individually on the row. -/
noncomputable def lastTreesStd (trees : List Rat) (B K : Nat) : Real :=
  listStd ((trees.take B).drop (B - min K B))


/-! ### Embedding of `relative_valuation`
(`src/backend/src/data/features/fundamentals.py` lines 69-149) -/

/-- IEEE-style float values as the relative-valuation pipeline sees them:
a finite rational, a missing value (`NaN`), or a signed infinity. -/
inductive FVal where
  | num (q : Rat)
  | nan
  | posInf
  | negInf
deriving DecidableEq, Repr

def fneg : FVal → FVal
  | .num q => .num (-q)
  | .nan => .nan
  | .posInf => .negInf
  | .negInf => .posInf

def fsub : FVal → FVal → FVal
  | .nan, _ => .nan
  | _, .nan => .nan
  | .num a, .num b => .num (a - b)
  | .num _, .posInf => .negInf
  | .num _, .negInf => .posInf
  | .posInf, .posInf => .nan
  | .posInf, _ => .posInf
  | .negInf, .negInf => .nan
  | .negInf, _ => .negInf

def fdiv : FVal → FVal → FVal
  | .nan, _ => .nan
  | _, .nan => .nan
  | .num a, .num b =>
    if b = 0 then
      (if a = 0 then .nan else if 0 < a then .posInf else .negInf)
    else .num (a / b)
  | .num _, .posInf => .num 0
  | .num _, .negInf => .num 0
  | .posInf, .posInf => .nan
  | .posInf, .negInf => .nan
  | .posInf, .num b => if 0 ≤ b then .posInf else .negInf
  | .negInf, .negInf => .nan
  | .negInf, .posInf => .nan
  | .negInf, .num b => if 0 ≤ b then .negInf else .posInf

def replaceInfWithNan : FVal → FVal
  | .posInf => .nan
  | .negInf => .nan
  | v => v

def toF : Option Rat → FVal
  | none => .nan
  | some q => .num q

structure VRow where
  tk : Nat
  dt : Int
  sector : Option Nat
  pe : Option Rat
  pb : Option Rat
deriving DecidableEq, Repr, Inhabited

def crossVals (f : VRow → Option Rat) (rows : List VRow) (d : Int) :
    List Rat :=
  (rows.filter fun r => decide (r.dt = d)).filterMap f

def sampleVariance (l : List Rat) : Rat :=
  listSum (l.map fun x => (x - listMean l) ^ 2) / ((l.length - 1 : Nat) : Rat)

def groupMeanF (f : VRow → Option Rat) (rows : List VRow) (d : Int) : FVal :=
  if crossVals f rows d = [] then .nan
  else .num (listMean (crossVals f rows d))

def groupStdF (sqrtFn : Rat → Rat) (f : VRow → Option Rat)
    (rows : List VRow) (d : Int) : FVal :=
  if (crossVals f rows d).length < 2 then .nan
  else .num (sqrtFn (sampleVariance (crossVals f rows d)))

def zscoreRaw (sqrtFn : Rat → Rat) (f : VRow → Option Rat)
    (rows : List VRow) (r : VRow) : FVal :=
  fdiv (fneg (fsub (toF (f r)) (groupMeanF f rows r.dt)))
    (groupStdF sqrtFn f rows r.dt)

def zscoreCol (sqrtFn : Rat → Rat) (f : VRow → Option Rat)
    (rows : List VRow) (r : VRow) : FVal :=
  replaceInfWithNan (zscoreRaw sqrtFn f rows r)

def compute_cross_sectional_zscores (sqrtFn : Rat → Rat)
    (rows : List VRow) : List (VRow × FVal × FVal) :=
  rows.map fun r => (r, zscoreCol sqrtFn (fun x => x.pe) rows r,
    zscoreCol sqrtFn (fun x => x.pb) rows r)

def sectorMeanF (f : VRow → Option Rat) (rows : List VRow) (r : VRow) :
    FVal :=
  match r.sector with
  | none => .nan
  | some sec =>
    if ((rows.filter fun x =>
          decide (x.dt = r.dt ∧ x.sector = some sec)).filterMap f) = []
    then .nan
    else .num (listMean ((rows.filter fun x =>
      decide (x.dt = r.dt ∧ x.sector = some sec)).filterMap f))

def sectorRelCol (f : VRow → Option Rat) (rows : List VRow) (r : VRow) :
    FVal :=
  replaceInfWithNan (fdiv (toF (f r)) (sectorMeanF f rows r))

def compute_sector_relative (rows : List VRow) :
    List (VRow × FVal × FVal) :=
  rows.map fun r => (r, sectorRelCol (fun x => x.pe) rows r,
    sectorRelCol (fun x => x.pb) rows r)

def relative_valuation (sqrtFn : Rat → Rat)
    (secMap : Option (Nat → Option Nat)) (rows : List VRow) :
    List (VRow × FVal × FVal) :=
  match secMap with
  | some m =>
    compute_sector_relative (rows.map fun r => { r with sector := m r.tk })
  | none => compute_cross_sectional_zscores sqrtFn rows

/-! ### Embedding of `aggregate_news_sentiment`
(`src/backend/src/data/features/sentiment.py` lines 11-100) -/

/-- One raw news record: ticker, day (of the timestamp), intraday time
(dropped by the `dt.date` truncation of `sentiment.py` line 47),
compound sentiment and the dedup key `url`. -/
structure NewsRow where
  tk : Nat
  day : Int
  tod : Nat
  sent : Rat
  url : Nat
deriving DecidableEq, Repr, Inhabited

/-- The traversal behind `drop_duplicates(subset=["ticker", "url"],
keep="first")` (`sentiment.py` line 53): keep a record only when its
`(ticker, url)` key has not been seen before. -/
def dedupGo : List NewsRow → List (Nat × Nat) → List NewsRow
  | [], _ => []
  | n :: rest, seen =>
    if (n.tk, n.url) ∈ seen then dedupGo rest seen
    else n :: dedupGo rest ((n.tk, n.url) :: seen)

/-- Deduplicated news, first occurrence kept. -/
def dedup_news (l : List NewsRow) : List NewsRow := dedupGo l []

/-- The deduplicated news of one `(ticker, day)` cell, as grouped by
`sentiment.py` lines 56-63. -/
def dailyNews (news : List NewsRow) (tk : Nat) (d : Int) : List NewsRow :=
  (dedup_news news).filter fun n => decide (n.tk = tk ∧ n.day = d)

/-- `headline_count` for a day: size of its deduplicated news group,
with the `fillna(0)` of line 72 built in for empty days. -/
def headlineCount (news : List NewsRow) (tk : Nat) (d : Int) : Nat :=
  (dailyNews news tk d).length

/-- `sent_mean_comp` before the `fillna(0.0)` of line 71: the mean
sentiment of the day's news, missing when the day has none. -/
def sentMeanOpt (news : List NewsRow) (tk : Nat) (d : Int) : Option Rat :=
  if dailyNews news tk d = [] then none
  else some (listMean ((dailyNews news tk d).map fun n => n.sent))

/-- The trailing window of spine rows `rolling(window=w, min_periods=1)`
sums at row `j` of the sorted spine `s` (lines 75-87): the last at most
`w` rows, up to and including `j`, of the group of rows sharing row `j`'s
ticker.  Row `j`'s position inside its group is the number of earlier
same-ticker rows. -/
def spineWindow (s : List (Nat × Int)) (w j : Nat) : List (Nat × Int) :=
  ((s.filter fun p => decide (p.1 = (s.getD j (0, 0)).1)).take
    (((s.take j).countP fun p => decide (p.1 = (s.getD j (0, 0)).1)) + 1)).drop
    ((((s.take j).countP fun p => decide (p.1 = (s.getD j (0, 0)).1)) + 1) - w)

/-- `burst_3d` and `burst_7d` (lines 83-84): the trailing rolling sum of
daily headline counts; `astype(int)` of lines 97-98 is exact because the
counts are integers. -/
def burst (news : List NewsRow) (s : List (Nat × Int)) (w j : Nat) : Nat :=
  ((spineWindow s w j).map fun p => headlineCount news p.1 p.2).sum

/-- `sent_ma_7d` (line 87): trailing rolling mean of the daily mean
sentiment. -/
def sentMa (news : List NewsRow) (s : List (Nat × Int)) (w j : Nat) : Rat :=
  listMean ((spineWindow s w j).map fun p =>
    (sentMeanOpt news p.1 p.2).getD 0)

/-- One output row of the aggregation. -/
structure SentRow where
  tk : Nat
  day : Int
  sent : Rat
  burst3 : Nat
  burst7 : Nat
  sentMa7 : Rat
deriving DecidableEq, Repr, Inhabited

/-- `aggregate_news_sentiment` (`sentiment.py` lines 11-100): zero-fill
everything when there is no news at all; otherwise sort the spine,
merge the daily aggregates with zero fill and compute the per-ticker
trailing rolling features. -/
def aggregate_news_sentiment (news : List NewsRow)
    (spine : List (Nat × Int)) : List SentRow :=
  if spine = [] then []
  else if news = [] then
    spine.map fun p => ⟨p.1, p.2, 0, 0, 0, 0⟩
  else
    (List.range (spine.insertionSort tdLE).length).map fun j =>
      ⟨((spine.insertionSort tdLE).getD j (0, 0)).1,
       ((spine.insertionSort tdLE).getD j (0, 0)).2,
       (sentMeanOpt news ((spine.insertionSort tdLE).getD j (0, 0)).1
         ((spine.insertionSort tdLE).getD j (0, 0)).2).getD 0,
       burst news (spine.insertionSort tdLE) 3 j,
       burst news (spine.insertionSort tdLE) 7 j,
       sentMa news (spine.insertionSort tdLE) 7 j⟩

/-- The specification example spine: one instrument, ten consecutive
days. -/
def exampleSpine : List (Nat × Int) :=
  [(1, 1), (1, 2), (1, 3), (1, 4), (1, 5),
   (1, 6), (1, 7), (1, 8), (1, 9), (1, 10)]

/-- The specification example news: 1, 2, 3, 3, ... headlines per day,
with day 1 carrying a duplicated url that must count once. -/
def exampleNews : List NewsRow :=
  [⟨1, 1, 0, 0, 10⟩, ⟨1, 1, 5, 0, 10⟩,
   ⟨1, 2, 0, 0, 20⟩, ⟨1, 2, 0, 0, 21⟩,
   ⟨1, 3, 0, 0, 30⟩, ⟨1, 3, 0, 0, 31⟩, ⟨1, 3, 0, 0, 32⟩,
   ⟨1, 4, 0, 0, 40⟩, ⟨1, 4, 0, 0, 41⟩, ⟨1, 4, 0, 0, 42⟩,
   ⟨1, 5, 0, 0, 50⟩, ⟨1, 5, 0, 0, 51⟩, ⟨1, 5, 0, 0, 52⟩,
   ⟨1, 6, 0, 0, 60⟩, ⟨1, 6, 0, 0, 61⟩, ⟨1, 6, 0, 0, 62⟩,
   ⟨1, 7, 0, 0, 70⟩, ⟨1, 7, 0, 0, 71⟩, ⟨1, 7, 0, 0, 72⟩,
   ⟨1, 8, 0, 0, 80⟩, ⟨1, 8, 0, 0, 81⟩, ⟨1, 8, 0, 0, 82⟩,
   ⟨1, 9, 0, 0, 90⟩, ⟨1, 9, 0, 0, 91⟩, ⟨1, 9, 0, 0, 92⟩,
   ⟨1, 10, 0, 0, 100⟩, ⟨1, 10, 0, 0, 101⟩, ⟨1, 10, 0, 0, 102⟩]

/-! ### Embedding of `compute_composite_scores`
(`src/backend/src/data/features/composite.py`) -/

/-- One feature row for the composite scorer: keyed columns plus an open
map of named numeric columns with possible missing values. -/
structure CRow where
  tk : Nat
  dt : Int
  vals : List (String × Option Rat)
deriving DecidableEq, Repr, Inhabited

/-- The feature frame: its column names and rows. -/
structure CTable where
  cols : List String
  rows : List CRow
deriving DecidableEq, Repr

/-- Reading a named column of a row, missing when absent. -/
def getVal (r : CRow) (c : String) : Option Rat :=
  match r.vals.lookup c with
  | some v => v
  | none => none

/-- The same-date cross-section of one column: the non-missing values of
the rows sharing the date, the population `df.groupby("dt")[col]` ranks
within (`composite.py` line 183). -/
def sameDateVals (rows : List CRow) (g : CRow → Option Rat) (d : Int) :
    List Rat :=
  (rows.filter fun r => decide (r.dt = d)).filterMap g

/-- `rank(pct=True)` with the default average method: the mean rank of
the value's tie group divided by the non-missing group size. -/
def rankPct (vals : List Rat) (x : Rat) : Rat :=
  (((vals.countP fun v => decide (v < x)) : Rat) +
    (((vals.countP fun v => decide (v = x)) : Rat) + 1) / 2) / vals.length

/-- `_scale_to_01` (`composite.py` lines 170-191): percentile rank per
date, missing filled with the neutral 0.5, clipped to the unit
interval. -/
def scale01 (rows : List CRow) (g : CRow → Option Rat) (r : CRow) : Rat :=
  min 1 (max 0 (match g r with
    | none => 1/2
    | some x => rankPct (sameDateVals rows g r.dt) x))

/-- The specification's reading of the scaling: same-date cross-sectional
percentile rank with missing mapped to the neutral 0.5, no clip. -/
def specScale (rows : List CRow) (g : CRow → Option Rat) (r : CRow) : Rat :=
  match g r with
  | none => 1/2
  | some x => rankPct (sameDateVals rows g r.dt) x

/-- The candidate source columns present in the frame, in candidate
order (the membership checks of `composite.py` lines 62-69 etc.). -/
def presentCols (cols : List String) (cands : List String) : List String :=
  cands.filter fun c => decide (c ∈ cols)

/-- The generic sub-dimension score (`composite.py` lines 57-85 and
analogues): neutral 0.5 when no source column exists, otherwise the mean
of the scaled present columns. -/
def dimensionScore (t : CTable) (cands : List String) (r : CRow) : Rat :=
  if presentCols t.cols cands = [] then 1/2
  else listSum ((presentCols t.cols cands).map fun c =>
    scale01 t.rows (fun x => getVal x c) r) /
    (presentCols t.cols cands).length

/-- Quality sources (`composite.py` lines 62-69). -/
def qualityCands : List String := ["roe", "roce", "opm", "npm"]

/-- Valuation sources (lines 92-95). -/
def valuationCands : List String := ["pe_vs_sector", "pb_vs_sector"]

/-- Sentiment sources (lines 150-153). -/
def sentimentCands : List String := ["sent_mean_comp", "sent_ma_7d"]

/-- Momentum sources besides RSI (lines 118-121). -/
def momentumCands : List String := ["momentum_20", "momentum_60"]

/-- `_compute_quality_score`. -/
def quality_score (t : CTable) (r : CRow) : Rat :=
  dimensionScore t qualityCands r

/-- `_compute_valuation_score`. -/
def valuation_score (t : CTable) (r : CRow) : Rat :=
  dimensionScore t valuationCands r

/-- `_compute_sentiment_score`. -/
def sentiment_score (t : CTable) (r : CRow) : Rat :=
  dimensionScore t sentimentCands r

/-- The temporary `rsi_normalized` column `rsi_14 / 100.0`
(`composite.py` line 124). -/
def rsiGetter (r : CRow) : Option Rat :=
  (getVal r "rsi_14").map fun x => x / 100

/-- `_compute_momentum_score` (lines 114-143): the present momentum
columns plus the normalized RSI when `rsi_14` exists. -/
def momentum_score (t : CTable) (r : CRow) : Rat :=
  if "rsi_14" ∈ t.cols then
    listSum ((presentCols t.cols momentumCands).map (fun c =>
        scale01 t.rows (fun x => getVal x c) r)
      ++ [scale01 t.rows rsiGetter r]) /
    (((presentCols t.cols momentumCands).length : Rat) + 1)
  else dimensionScore t momentumCands r

/-! ### Embedding of `clean_features` and `_fill_nans`
(`src/backend/src/data/features/joiner.py` lines 58-116) -/

/-- The joined feature frame: column names (the key columns `ticker` and
`dt` among them, their values coded as rationals) and positional rows. -/
structure FTable where
  cols : List String
  rows : List (List (Option Rat))
deriving DecidableEq, Repr

/-- The key columns excluded from dropping and filling (lines 80, 97). -/
def keyCols : List String := ["ticker", "dt"]

/-- The cell of a row under a named column. -/
def cellAt (cols : List String) (row : List (Option Rat)) (c : String) :
    Option Rat :=
  row.getD (cols.indexOf c) none

/-- `df.isna().sum()` for one column (line 76). -/
def missingCount (t : FTable) (c : String) : Nat :=
  t.rows.countP fun row => decide (cellAt t.cols row c = none)

/-- `nan_ratio` for one column: missing count over row count (line 76). -/
def missFrac (t : FTable) (c : String) : Rat :=
  (missingCount t c : Rat) / (t.rows.length : Rat)

/-- A column survives the drop of lines 77-85 when it is a key column or
its missing rate does not exceed the threshold. -/
def keepCol (t : FTable) (θ : Rat) (c : String) : Prop :=
  c ∈ keyCols ∨ ¬(missFrac t c > θ)

instance (t : FTable) (θ : Rat) (c : String) : Decidable (keepCol t θ c) :=
  decidable_of_iff (c ∈ keyCols ∨ ¬(missFrac t c > θ)) Iff.rfl

/-- The column-dropping stage (lines 75-85): dropped columns are removed
from the schema and from every row. -/
def dropCols (θ : Rat) (t : FTable) : FTable :=
  { cols := t.cols.filter fun c => decide (keepCol t θ c),
    rows := t.rows.map fun row =>
      ((t.cols.zip row).filter fun p => decide (keepCol t θ p.1)).map
        Prod.snd }

/-- The sort and grouping key read from the `ticker` column. -/
def tickerOf (cols : List String) (row : List (Option Rat)) : Rat :=
  (cellAt cols row "ticker").getD 0

/-- The secondary sort key read from the `dt` column. -/
def dtOf (cols : List String) (row : List (Option Rat)) : Rat :=
  (cellAt cols row "dt").getD 0

/-- `df.sort_values(["ticker", "dt"])` row order (line 104). -/
def rowLE (cols : List String) (a b : List (Option Rat)) : Prop :=
  tickerOf cols a < tickerOf cols b ∨
  (tickerOf cols a = tickerOf cols b ∧ dtOf cols a ≤ dtOf cols b)

instance (cols : List String) : DecidableRel (rowLE cols) := fun a b =>
  decidable_of_iff (tickerOf cols a < tickerOf cols b ∨
    (tickerOf cols a = tickerOf cols b ∧ dtOf cols a ≤ dtOf cols b)) Iff.rfl

instance (cols : List String) : IsTotal (List (Option Rat)) (rowLE cols) := by
  refine ⟨fun a b => ?_⟩
  unfold rowLE
  rcases lt_trichotomy (tickerOf cols a) (tickerOf cols b) with h | h | h
  · exact Or.inl (Or.inl h)
  · rcases le_total (dtOf cols a) (dtOf cols b) with h2 | h2
    · exact Or.inl (Or.inr ⟨h, h2⟩)
    · exact Or.inr (Or.inr ⟨h.symm, h2⟩)
  · exact Or.inr (Or.inl h)

instance (cols : List String) : IsTrans (List (Option Rat)) (rowLE cols) := by
  refine ⟨fun a b c hab hbc => ?_⟩
  unfold rowLE at *
  rcases hab with h1 | ⟨h1, h1d⟩ <;> rcases hbc with h2 | ⟨h2, h2d⟩
  · exact Or.inl (lt_trans h1 h2)
  · exact Or.inl (h2 ▸ h1)
  · exact Or.inl (h1 ▸ h2)
  · exact Or.inr ⟨h1.trans h2, le_trans h1d h2d⟩

/-- `ffill` over one column of one instrument group (line 109): each
missing cell takes the last earlier value. -/
def ffillGo (carry : Option Rat) : List (Option Rat) → List (Option Rat)
  | [] => []
  | none :: rest => carry :: ffillGo carry rest
  | some x :: rest => some x :: ffillGo (some x) rest

/-- `bfill` (line 111): each missing cell takes the next later value,
embedded as a forward fill over the reversed column. -/
def bfill (l : List (Option Rat)) : List (Option Rat) :=
  (ffillGo none l.reverse).reverse

/-- The grouped forward-then-backward fill of one instrument group:
non-key columns are filled, key columns pass through. -/
def fillGroup (cols : List String) (g : List (List (Option Rat))) :
    List (List (Option Rat)) :=
  (List.range g.length).map fun i =>
    (List.range cols.length).map fun p =>
      if cols.getD p "" ∈ keyCols then (g.getD i []).getD p none
      else (bfill (ffillGo none (g.map fun row => row.getD p none))).getD
        i none

/-- `df[fill_cols] = df[fill_cols].fillna(0)` (line 114): remaining
missing values of the non-key columns become zero. -/
def fillna0 (cols : List String) (rows : List (List (Option Rat))) :
    List (List (Option Rat)) :=
  rows.map fun row =>
    (List.range cols.length).map fun p =>
      if cols.getD p "" ∈ keyCols then row.getD p none
      else some ((row.getD p none).getD 0)

/-- `_fill_nans` (lines 93-116): identity when there is no fillable
column, otherwise sort by `(ticker, dt)`, fill per instrument group by
value (groups of the sorted frame are contiguous, so concatenating the
per-group results in first-appearance order reproduces the sorted row
order), then zero-fill. -/
def fill_nans (t : FTable) : FTable :=
  if t.cols.filter (fun c => decide (c ∉ keyCols)) = [] then t
  else
    { cols := t.cols,
      rows := fillna0 t.cols
        (((t.rows.insertionSort (rowLE t.cols)).map
            (tickerOf t.cols)).dedup.bind fun v =>
          fillGroup t.cols
            ((t.rows.insertionSort (rowLE t.cols)).filter fun row =>
              decide (tickerOf t.cols row = v))) }

/-- `clean_features` (lines 58-90) with its Python default threshold
`nan_threshold = 0.5`: drop over-missing non-key columns, then fill. -/
def clean_features (θ : Rat) (t : FTable) : FTable :=
  if t.rows = [] then t
  else fill_nans (dropCols θ t)

/-- `clean_features` at its default threshold. -/
def clean_features_default (t : FTable) : FTable :=
  clean_features (1 / 2) t

/-! ## Theorems -/

/-- Every fold produced by `foldAt` is the pair of filtered index lists of
`timesplit.py` lines 93-98, and both lists are nonempty. -/
theorem foldAt_eq_some {d : List Int} {e tw step i : Nat}
    {p : List Nat × List Nat} (h : foldAt d e tw step i = some p) :
    p.1 = trainIdxAt d e tw step i ∧ p.2 = testIdxAt d tw step i ∧
    p.1 ≠ [] ∧ p.2 ≠ [] := by
  unfold foldAt at h
  split at h
  · exact absurd h (by simp)
  · split at h
    · exact absurd h (by simp)
    · rename_i hne
      rw [not_or] at hne
      cases h
      exact ⟨rfl, rfl, hne.1, hne.2⟩

/-- The training cutoff plus the embargo never reaches past the test start
date (`timesplit.py` lines 86-90). -/
theorem trainEndDate_add_embargo_le (d : List Int) (e tw step i : Nat) :
    trainEndDate d e tw step i + e ≤ testStartDate d tw step i := by
  unfold trainEndDate
  split <;> omega

/-- The training cutoff is strictly before the test start date. -/
theorem trainEndDate_lt_testStartDate (d : List Int) (e tw step i : Nat) :
    trainEndDate d e tw step i < testStartDate d tw step i := by
  unfold trainEndDate
  split <;> omega

/-- On a sorted list, `getD` is monotone below the length. -/
theorem getD_mono_of_sorted {d : List Int} (hs : d.Sorted (· ≤ ·))
    {a b : Nat} (hab : a ≤ b) (hb : b < d.length) :
    d.getD a 0 ≤ d.getD b 0 := by
  have ha : a < d.length := lt_of_le_of_lt hab hb
  rw [List.getD_eq_get _ _ ha, List.getD_eq_get _ _ hb]
  exact hs.rel_get_of_le (by exact hab)

/-- The test start index is monotone in the fold index. -/
theorem testStartIdx_mono (n tw step : Nat) {i j : Nat} (hij : i ≤ j) :
    testStartIdx n tw step i ≤ testStartIdx n tw step j := by
  unfold testStartIdx testEndIdx
  have : (i + 1) * step ≤ (j + 1) * step := Nat.mul_le_mul_right _ (by omega)
  omega

/-- The test start index stays inside the sorted array as soon as the
window size is at least one and the data is nonempty. -/
theorem testStartIdx_lt (n tw step i : Nat) (htw : 1 ≤ tw) (hn : 1 ≤ n) :
    testStartIdx n tw step i < n := by
  unfold testStartIdx testEndIdx
  omega

/-- The train cutoff date is monotone in the fold index over a sorted date
list. -/
theorem trainEndDate_mono {d : List Int} (hs : d.Sorted (· ≤ ·))
    (e tw step : Nat) (htw : 1 ≤ tw) (hn : 1 ≤ d.length) {i j : Nat}
    (hij : i ≤ j) :
    trainEndDate d e tw step i ≤ trainEndDate d e tw step j := by
  have hmono : testStartDate d tw step i ≤ testStartDate d tw step j :=
    getD_mono_of_sorted hs (testStartIdx_mono d.length tw step hij)
      (testStartIdx_lt d.length tw step j htw hn)
  unfold trainEndDate testStartDate at *
  split <;> omega

/-- C1.  For every fold returned by `expanding_window_split` on a list of
distinct dates: every train date plus `embargoDays` is at most every test
date (so the maximum train date plus the embargo is at most the minimum
test date, both folds being nonempty), the train and test index sets are
disjoint, and train sizes are non-decreasing along the fold list. -/
theorem expanding_window_split_invariants
    (dates : List Int) (nSplits embargoDays : Nat) (testSize : Rat)
    (splits : List (List Nat × List Nat))
    (hnd : dates.Nodup)
    (hok : expanding_window_split dates nSplits embargoDays testSize
      = .ok splits) :
    (∀ fold ∈ splits,
        fold.1 ≠ [] ∧ fold.2 ≠ [] ∧
        (∀ a ∈ fold.1, ∀ b ∈ fold.2,
          (sortDates dates).getD a 0 + embargoDays
            ≤ (sortDates dates).getD b 0) ∧
        (∀ a ∈ fold.1, a ∉ fold.2)) ∧
    splits.Pairwise (fun f g => f.1.length ≤ g.1.length) := by
  have hsorted : (sortDates dates).Sorted (· ≤ ·) :=
    List.sorted_insertionSort _ _
  unfold expanding_window_split at hok
  split at hok
  · exact absurd hok (by simp)
  · rename_i hsz
    have hn1 : 1 ≤ (sortDates dates).length := by omega
    split at hok
    · exact absurd hok (by simp)
    · cases hok
      constructor
      · intro fold hmem
        rw [survivingFolds] at hmem
        obtain ⟨i, _hi, hfold⟩ := List.mem_filterMap.mp hmem
        obtain ⟨htr, hte, hne1, hne2⟩ := foldAt_eq_some hfold
        refine ⟨hne1, hne2, ?_, ?_⟩
        · intro a ha b hb
          rw [htr] at ha
          rw [hte] at hb
          have ha' := (List.mem_filter.mp ha).2
          have hb' := (List.mem_filter.mp hb).2
          rw [decide_eq_true_eq] at ha' hb'
          have h1 := trainEndDate_add_embargo_le (sortDates dates) embargoDays
            (testWindowSize (sortDates dates).length testSize)
            (stepSize (sortDates dates).length
              (testWindowSize (sortDates dates).length testSize) nSplits) i
          omega
        · intro a ha hb
          rw [htr] at ha
          rw [hte] at hb
          have ha' := (List.mem_filter.mp ha).2
          have hb' := (List.mem_filter.mp hb).2
          rw [decide_eq_true_eq] at ha' hb'
          have h1 := trainEndDate_lt_testStartDate (sortDates dates)
            embargoDays
            (testWindowSize (sortDates dates).length testSize)
            (stepSize (sortDates dates).length
              (testWindowSize (sortDates dates).length testSize) nSplits) i
          omega
      · rw [survivingFolds]
        refine (List.pairwise_lt_range nSplits).filterMap _ ?_
        intro i j hij f hf g hg
        rw [Option.mem_def] at hf hg
        obtain ⟨htrf, _, _, _⟩ := foldAt_eq_some hf
        obtain ⟨htrg, _, _, _⟩ := foldAt_eq_some hg
        rw [htrf, htrg]
        unfold trainIdxAt
        rw [← List.countP_eq_length_filter, ← List.countP_eq_length_filter]
        refine List.countP_mono_left ?_
        intro x _hx hpx
        rw [decide_eq_true_eq] at hpx ⊢
        refine le_trans hpx ?_
        exact trainEndDate_mono hsorted embargoDays _ _
          (le_max_left 1 _) hn1 hij.le

/-- The test window over ten dates at a 20 percent test fraction has two
rows.  Rational arithmetic is irreducible in the kernel, so the floor is
evaluated through `norm_num` here once and reused. -/
theorem testWindowSize_ten_fifth :
    testWindowSize (sortDates [0, 1, 2, 3, 4, 5, 6, 7, 8, 9]).length
      (1 / 5) = 2 := by
  have hl : (sortDates [0, 1, 2, 3, 4, 5, 6, 7, 8, 9]).length = 10 := by
    decide
  rw [hl]
  unfold testWindowSize
  have h2 : ((10 : Nat) : Rat) * (1 / 5) = ((2 : Int) : Rat) := by norm_num
  rw [h2, Int.floor_intCast]
  decide

/-- Concrete evaluation of the splitter on ten consecutive dates, three
splits, embargo two, test fraction one fifth. -/
theorem expanding_window_split_ten_eval :
    expanding_window_split [0, 1, 2, 3, 4, 5, 6, 7, 8, 9] 3 2 (1 / 5)
      = .ok [([0], [2, 3]), ([0, 1, 2], [4, 5]), ([0, 1, 2, 3, 4], [6, 7])] := by
  unfold expanding_window_split survivingFolds
  rw [testWindowSize_ten_fifth]
  decide

/-- Witness for C1 at a concrete input: ten consecutive dates, three
splits, a two-day embargo and a 20 percent test fraction. -/
theorem expanding_window_split_invariants_witness :
    ([0, 1, 2, 3, 4, 5, 6, 7, 8, 9] : List Int).Nodup ∧
    ((∀ fold ∈ ([([0], [2, 3]), ([0, 1, 2], [4, 5]),
          ([0, 1, 2, 3, 4], [6, 7])] : List (List Nat × List Nat)),
        fold.1 ≠ [] ∧ fold.2 ≠ [] ∧
        (∀ a ∈ fold.1, ∀ b ∈ fold.2,
          (sortDates [0, 1, 2, 3, 4, 5, 6, 7, 8, 9]).getD a 0 + (2 : Nat)
            ≤ (sortDates [0, 1, 2, 3, 4, 5, 6, 7, 8, 9]).getD b 0) ∧
        (∀ a ∈ fold.1, a ∉ fold.2)) ∧
      List.Pairwise (fun f g => f.1.length ≤ g.1.length)
        ([([0], [2, 3]), ([0, 1, 2], [4, 5]),
          ([0, 1, 2, 3, 4], [6, 7])] : List (List Nat × List Nat))) :=
  ⟨by decide,
    expanding_window_split_invariants [0, 1, 2, 3, 4, 5, 6, 7, 8, 9] 3 2
      (1 / 5) [([0], [2, 3]), ([0, 1, 2], [4, 5]), ([0, 1, 2, 3, 4], [6, 7])]
      (by decide) expanding_window_split_ten_eval⟩

/-- C4.  With at least one requested split, `expanding_window_split`
raises a validation error exactly when the number of input dates is below
`n_splits + 1` or when zero folds survive the skip logic; in every other
case it returns a nonempty fold list. -/
theorem expanding_window_split_error_iff
    (dates : List Int) (nSplits embargoDays : Nat) (testSize : Rat)
    (hns : 1 ≤ nSplits) :
    ((∃ msg, expanding_window_split dates nSplits embargoDays testSize
        = .error msg) ↔
      (dates.length < nSplits + 1 ∨
        survivingFolds dates nSplits embargoDays testSize = [])) ∧
    (∀ l, expanding_window_split dates nSplits embargoDays testSize = .ok l
      → l ≠ []) := by
  have hlen : (sortDates dates).length = dates.length :=
    (List.perm_insertionSort _ _).length_eq
  unfold expanding_window_split
  rw [hlen]
  split
  · rename_i h
    refine ⟨⟨fun _ => Or.inl h, fun _ => ⟨_, rfl⟩⟩, ?_⟩
    intro l hl
    exact absurd hl (by simp)
  · rename_i h
    split
    · rename_i hempty
      refine ⟨⟨fun _ => Or.inr hempty, fun _ => ⟨_, rfl⟩⟩, ?_⟩
      intro l hl
      exact absurd hl (by simp)
    · rename_i hne
      refine ⟨⟨?_, ?_⟩, ?_⟩
      · rintro ⟨msg, hmsg⟩
        exact absurd hmsg (by simp)
      · intro hor
        rcases hor with h1 | h2
        · omega
        · exact absurd h2 hne
      · intro l hl
        have hl2 : survivingFolds dates nSplits embargoDays testSize = l := by
          cases hl; rfl
        rw [← hl2]
        exact hne

/-- Witness for C4 at a concrete input: three dates cannot support five
splits, so a validation error is raised. -/
theorem expanding_window_split_error_iff_witness :
    (1 ≤ 5) ∧
    (∃ msg, expanding_window_split [0, 1, 2] 5 0 (1 / 5) = .error msg) :=
  ⟨by decide,
    (expanding_window_split_error_iff [0, 1, 2] 5 0 (1 / 5) (by decide)).1.mpr
      (Or.inl (by decide))⟩


/-- One loop step of the grouped shift: prepending a row shifts every
later row's slot by one but leaves its label unchanged, whether or not the
new head shares its ticker. -/
theorem rowLabel_succ (r : PriceRow) (s : List PriceRow) (H j : Nat) :
    rowLabel (r :: s) H (j + 1) = rowLabel s H j := by
  unfold rowLabel shiftedClose
  rw [List.get?_cons_succ]
  cases hj : s.get? j with
  | none => rfl
  | some rj =>
    simp only []
    rw [List.take_succ_cons, List.countP_cons, List.filter_cons]
    by_cases htk : r.tk = rj.tk
    · rw [if_pos (by simp [htk]), if_pos (by simp [htk])]
      have harith : (s.take j).countP (fun x => decide (x.tk = rj.tk)) +
          1 + H = ((s.take j).countP (fun x => decide (x.tk = rj.tk)) + H)
          + 1 := by omega
      rw [harith, List.get?_cons_succ]
    · rw [if_neg (by simp [htk]), if_neg (by simp [htk])]
      simp only [Nat.add_zero]

/-- The label of the first frame row: defined exactly when the row has an
`H`-step successor among the rows of its own ticker. -/
theorem rowLabel_zero (r : PriceRow) (s : List PriceRow) (H : Nat) :
    rowLabel (r :: s) H 0 =
      if H ≤ (s.filter fun x => decide (x.tk = r.tk)).length then
        some ⟨r.tk, r.dt,
          (((r :: s.filter fun x => decide (x.tk = r.tk)).getD H
            default).close) / r.close - 1⟩
      else none := by
  unfold rowLabel shiftedClose
  rw [List.get?_cons_zero]
  simp only [List.take_zero, List.countP_nil, Nat.zero_add]
  rw [List.filter_cons, if_pos (by simp)]
  by_cases hH : H ≤ (s.filter fun x => decide (x.tk = r.tk)).length
  · have hlt : H < (r :: s.filter fun x => decide (x.tk = r.tk)).length := by
      simp only [List.length_cons]; omega
    rw [List.get?_eq_get hlt, if_pos hH]
    simp [List.getElem?_eq_getElem hlt]
  · have hnone : (r :: s.filter fun x => decide (x.tk = r.tk)).get? H
        = none := by
      rw [List.get?_eq_none]
      simp only [List.length_cons]; omega
    rw [hnone, if_neg hH]
    rfl

/-- Unfolding of the specification labels over a cons cell. -/
theorem seriesLabels_cons (r : PriceRow) (g : List PriceRow) (H T : Nat) :
    seriesLabels (r :: g) H T =
      (if H ≤ g.length then
        [(⟨T, r.dt, ((r :: g).getD H default).close / r.close - 1⟩ :
          LabelRow)]
      else [])
      ++ seriesLabels g H T := by
  unfold seriesLabels
  by_cases hH : H ≤ g.length
  · rw [if_pos hH]
    have hlen : (r :: g).length - H = (g.length - H) + 1 := by
      simp only [List.length_cons]; omega
    rw [hlen, List.range_succ_eq_map, List.map_cons, List.map_map]
    congr 1
    · simp
    · apply List.map_congr_left
      intro t _ht
      simp only [Function.comp_apply, Nat.succ_eq_add_one]
      have harith : t + 1 + H = (t + H) + 1 := by omega
      rw [harith]
      simp [List.getD_cons_succ]
  · rw [if_neg hH]
    have h1 : (r :: g).length - H = 0 := by
      simp only [List.length_cons]; omega
    have h2 : g.length - H = 0 := by omega
    rw [h1, h2]
    simp

/-- The ticker-`T` labels of the grouped shift over any frame `s` are the
specification labels of the subsequence of `s` with ticker `T`.  This
holds for every frame: the grouped shift never crosses instruments. -/
theorem filterMap_rowLabel_filter (s : List PriceRow) (H T : Nat) :
    ((List.range s.length).filterMap (rowLabel s H)).filter
        (fun x => decide (x.tk = T))
      = seriesLabels (s.filter fun x => decide (x.tk = T)) H T := by
  induction s with
  | nil => simp [seriesLabels]
  | cons r s ih =>
    have hcomp : (List.range s.length).filterMap
        ((rowLabel (r :: s) H) ∘ Nat.succ)
        = (List.range s.length).filterMap (rowLabel s H) := by
      congr 1
      funext j
      exact rowLabel_succ r s H j
    by_cases hH : H ≤ (s.filter fun x => decide (x.tk = r.tk)).length
    · have hz : rowLabel (r :: s) H 0 = some ⟨r.tk, r.dt,
          (((r :: s.filter fun x => decide (x.tk = r.tk)).getD H
            default).close) / r.close - 1⟩ := by
        rw [rowLabel_zero, if_pos hH]
      rw [List.length_cons, List.range_succ_eq_map,
        List.filterMap_cons_some hz, List.filterMap_map, hcomp]
      by_cases htk : r.tk = T
      · subst htk
        rw [List.filter_cons, if_pos (by simp)]
        conv_rhs => rw [List.filter_cons, if_pos (by simp)]
        rw [seriesLabels_cons, if_pos hH, ih]
        rfl
      · rw [List.filter_cons, if_neg (by simp [htk])]
        conv_rhs => rw [List.filter_cons, if_neg (by simp [htk])]
        rw [ih]
    · have hz : rowLabel (r :: s) H 0 = none := by
        rw [rowLabel_zero, if_neg hH]
      rw [List.length_cons, List.range_succ_eq_map,
        List.filterMap_cons_none hz, List.filterMap_map, hcomp, ih]
      by_cases htk : r.tk = T
      · subst htk
        conv_rhs => rw [List.filter_cons, if_pos (by simp)]
        rw [seriesLabels_cons, if_neg hH]
        rfl
      · conv_rhs => rw [List.filter_cons, if_neg (by simp [htk])]

/-- A date-ordered run of rows of one ticker with no duplicate
`(ticker, date)` keys is strictly date-sorted. -/
theorem pairwise_dtLT_helper {T : Nat} {g : List PriceRow}
    (hdt : g.Pairwise dtLE)
    (hnd : (g.map fun r => (r.tk, r.dt)).Nodup)
    (hT : ∀ x ∈ g, x.tk = T) :
    g.Pairwise dtLT := by
  have hkeys : g.Pairwise (fun a b => (a.tk, a.dt) ≠ (b.tk, b.dt)) :=
    List.pairwise_map.mp hnd
  refine List.Pairwise.imp_of_mem ?_ (hdt.and hkeys)
  intro a b ha hb hab
  have hta := hT a ha
  have htb := hT b hb
  have hle : a.dt ≤ b.dt := hab.1
  unfold dtLT
  rcases lt_or_eq_of_le hle with h | h
  · exact h
  · exact absurd (by rw [hta, htb, h]) hab.2

/-- Restricting the `(ticker, dt)`-sorted frame to one ticker gives that
ticker's own date-sorted series. -/
theorem filter_sortPrices_eq_tickerSeries (l : List PriceRow) (T : Nat)
    (hkeys : (l.map fun r => (r.tk, r.dt)).Nodup) :
    (sortPrices l).filter (fun x => decide (x.tk = T)) = tickerSeries l T := by
  have hpermA : List.Perm ((sortPrices l).filter (fun x => decide (x.tk = T)))
      (l.filter (fun x => decide (x.tk = T))) :=
    (List.perm_insertionSort priceLE l).filter _
  have hpermB : List.Perm (tickerSeries l T)
      (l.filter (fun x => decide (x.tk = T))) :=
    List.perm_insertionSort dtLE _
  have hndSort : ((sortPrices l).map fun r => (r.tk, r.dt)).Nodup :=
    ((List.perm_insertionSort priceLE l).map _).nodup_iff.mpr hkeys
  have hndA : (((sortPrices l).filter (fun x => decide (x.tk = T))).map
      (fun r => (r.tk, r.dt))).Nodup :=
    hndSort.sublist ((List.filter_sublist _).map _)
  have hndFil : ((l.filter (fun x => decide (x.tk = T))).map
      (fun r => (r.tk, r.dt))).Nodup :=
    hkeys.sublist ((List.filter_sublist _).map _)
  have hndB : ((tickerSeries l T).map fun r => (r.tk, r.dt)).Nodup :=
    ((hpermB.map _).nodup_iff).mpr hndFil
  have hTA : ∀ x ∈ (sortPrices l).filter (fun x => decide (x.tk = T)),
      x.tk = T := by
    intro x hx
    have h := (List.mem_filter.mp hx).2
    simpa using h
  have hTB : ∀ x ∈ tickerSeries l T, x.tk = T := by
    intro x hx
    have h := (List.mem_filter.mp (hpermB.subset hx)).2
    simpa using h
  have hdtA : ((sortPrices l).filter
      (fun x => decide (x.tk = T))).Pairwise dtLE := by
    have hpw : (sortPrices l).Pairwise priceLE :=
      List.sorted_insertionSort priceLE l
    have hpwF : ((sortPrices l).filter
        (fun x => decide (x.tk = T))).Pairwise priceLE :=
      hpw.sublist (List.filter_sublist _)
    refine List.Pairwise.imp_of_mem ?_ hpwF
    intro a b ha hb hab
    have h1 := hTA a ha
    have h2 := hTA b hb
    unfold priceLE at hab
    unfold dtLE
    omega
  have hdtB : (tickerSeries l T).Pairwise dtLE :=
    List.sorted_insertionSort dtLE _
  exact List.eq_of_perm_of_sorted (hpermA.trans hpermB.symm)
    (pairwise_dtLT_helper hdtA hndA hTA)
    (pairwise_dtLT_helper hdtB hndB hTB)

/-- C2.  `compute_forward_returns` with horizon `H`, on positive prices
with no duplicate `(ticker, date)` keys, emits for every instrument `T`
exactly the labels `close[t+H] / close[t] - 1` over `T`'s own date-sorted
series, one for each position with an `H`-step successor and none for the
trailing `H` rows; and on prices 100, 102, 101, 103, 102.5 with horizon 1
the labels are 1/50 = 0.02, -1/102 = -0.0098039..., 2/101 = 0.0198...,
-1/206 = -0.00485... for the first four dates, with no label for the
fifth. -/
theorem compute_forward_returns_spec
    (l : List PriceRow) (H : Nat)
    (hkeys : (l.map fun r => (r.tk, r.dt)).Nodup)
    (hpos : ∀ r ∈ l, 0 < r.close) :
    (∀ T, (computeForwardReturns l H).filter (fun x => decide (x.tk = T))
        = specForwardLabels l T H) ∧
    computeForwardReturns
      [⟨0, 1, 100⟩, ⟨0, 2, 102⟩, ⟨0, 3, 101⟩, ⟨0, 4, 103⟩, ⟨0, 5, 205/2⟩] 1
      = [⟨0, 1, 1/50⟩, ⟨0, 2, -1/102⟩, ⟨0, 3, 2/101⟩, ⟨0, 4, -1/206⟩] := by
  constructor
  · intro T
    unfold computeForwardReturns specForwardLabels
    rw [filterMap_rowLabel_filter]
    rw [filter_sortPrices_eq_tickerSeries l T hkeys]
  · have h : computeForwardReturns
        [⟨0, 1, 100⟩, ⟨0, 2, 102⟩, ⟨0, 3, 101⟩, ⟨0, 4, 103⟩, ⟨0, 5, 205/2⟩] 1
        = [⟨0, 1, (102 : Rat)/100 - 1⟩, ⟨0, 2, (101 : Rat)/102 - 1⟩,
           ⟨0, 3, (103 : Rat)/101 - 1⟩, ⟨0, 4, (205/2 : Rat)/103 - 1⟩] := rfl
    rw [h]
    norm_num [LabelRow.mk.injEq]

/-- Witness for C2: the five-price example of the specification, one
instrument, horizon one. -/
theorem compute_forward_returns_spec_witness :
    (([⟨0, 1, 100⟩, ⟨0, 2, 102⟩, ⟨0, 3, 101⟩, ⟨0, 4, 103⟩,
        ⟨0, 5, 205/2⟩] : List PriceRow).map fun r => (r.tk, r.dt)).Nodup ∧
    ((computeForwardReturns
        [⟨0, 1, 100⟩, ⟨0, 2, 102⟩, ⟨0, 3, 101⟩, ⟨0, 4, 103⟩,
          ⟨0, 5, 205/2⟩] 1).filter (fun x => decide (x.tk = 0))
      = specForwardLabels
          [⟨0, 1, 100⟩, ⟨0, 2, 102⟩, ⟨0, 3, 101⟩, ⟨0, 4, 103⟩,
            ⟨0, 5, 205/2⟩] 0 1) :=
  ⟨by decide,
    (compute_forward_returns_spec
      [⟨0, 1, 100⟩, ⟨0, 2, 102⟩, ⟨0, 3, 101⟩, ⟨0, 4, 103⟩, ⟨0, 5, 205/2⟩] 1
      (by decide)
      (by
        intro r hr
        simp only [List.mem_cons, List.not_mem_nil, or_false] at hr
        rcases hr with rfl | rfl | rfl | rfl | rfl <;> norm_num)).1 0⟩


/-- The running argmax over candidates returns `none` only on empty
input, and otherwise an element at least as late as every candidate. -/
theorem foldl_pickLater_spec (l : List FundRow) (acc : Option FundRow) :
    (l.foldl pickLater acc = none ↔ (acc = none ∧ l = [])) ∧
    (∀ f, l.foldl pickLater acc = some f →
      (f ∈ l ∨ acc = some f) ∧ (∀ g ∈ l, g.asof ≤ f.asof) ∧
      (∀ g, acc = some g → g.asof ≤ f.asof)) := by
  induction l generalizing acc with
  | nil =>
    refine ⟨by simp, ?_⟩
    intro f hf
    simp only [List.foldl_nil] at hf
    exact ⟨Or.inr hf, by simp, fun g hg => by rw [hg] at hf; cases hf; exact le_refl _⟩
  | cons r l ih =>
    constructor
    · rw [List.foldl_cons]
      constructor
      · intro h
        have h1 := (ih (pickLater acc r)).1.mp h
        exfalso
        unfold pickLater at h1
        rcases h1 with ⟨h2, _⟩
        cases acc with
        | none => simp at h2
        | some g =>
          simp only [] at h2
          split at h2 <;> simp at h2
      · intro ⟨_, h⟩
        exact absurd h (by simp)
    · intro f hf
      rw [List.foldl_cons] at hf
      obtain ⟨hmem, hmax, hacc⟩ := (ih (pickLater acc r)).2 f hf
      refine ⟨?_, ?_, ?_⟩
      · rcases hmem with h | h
        · exact Or.inl (List.mem_cons_of_mem _ h)
        · unfold pickLater at h
          cases acc with
          | none =>
            simp only [Option.some.injEq] at h
            exact Or.inl (h ▸ List.mem_cons_self _ _)
          | some g =>
            simp only [] at h
            split at h
            · cases h; exact Or.inl (List.mem_cons_self _ _)
            · exact Or.inr h
      · intro g hg
        rcases List.mem_cons.mp hg with rfl | h
        · cases acc with
          | none => exact hacc g rfl
          | some g2 =>
            by_cases hle : g2.asof ≤ g.asof
            · exact hacc g (by unfold pickLater; simp [hle])
            · have h2 := hacc g2 (by unfold pickLater; simp [hle])
              exact le_trans (not_le.mp hle).le h2
        · exact hmax g h
      · intro g hg
        by_cases hle : g.asof ≤ r.asof
        · have h2 := hacc r (by unfold pickLater; rw [hg]; simp [hle])
          exact le_trans hle h2
        · exact hacc g (by unfold pickLater; rw [hg]; simp [hle])

/-- No snapshot is attached exactly when no candidate exists. -/
theorem asofPick_none_iff (fnd : List FundRow) (tk : Nat) (dt : Int)
    (tol : Nat) :
    asofPick fnd tk dt tol = none ↔ asofCandidates fnd tk dt tol = [] := by
  unfold asofPick
  rw [(foldl_pickLater_spec (asofCandidates fnd tk dt tol) none).1]
  simp

/-- An attached snapshot is a candidate with the greatest as-of date. -/
theorem asofPick_some {fnd : List FundRow} {tk : Nat} {dt : Int} {tol : Nat}
    {f : FundRow} (h : asofPick fnd tk dt tol = some f) :
    f ∈ asofCandidates fnd tk dt tol ∧
    ∀ g ∈ asofCandidates fnd tk dt tol, g.asof ≤ f.asof := by
  obtain ⟨hm, hmax, _⟩ :=
    (foldl_pickLater_spec (asofCandidates fnd tk dt tol) none).2 f h
  rcases hm with hmem | hbad
  · exact ⟨hmem, hmax⟩
  · cases hbad

/-- C3.  For every output row of `asof_join_fundamentals`: an attached
snapshot belongs to the input, has the row's ticker, an as-of date not
after the trading date (never a future snapshot), a gap of at most the
staleness cap `FUND_FFILL_DAYS = 120`, and is the latest such candidate;
no snapshot is attached exactly when no in-cap candidate exists (all
snapshots stale beyond the cap, or an instrument with no fundamentals at
all); an empty fundamentals input still emits the full fundamentals
column schema with every field missing, and a nonempty one keeps its
column schema. -/
theorem asof_join_fundamentals_spec
    (trading : List (Nat × Int)) (fnd : FundFrame) :
    (∀ row ∈ (asof_join_fundamentals trading fnd).rows, ∀ f,
        row.2.2 = some f →
          f ∈ fnd.rows ∧ f.tk = row.1 ∧ f.asof ≤ row.2.1 ∧
          row.2.1 - f.asof ≤ FUND_FFILL_DAYS ∧
          ∀ g ∈ fnd.rows, g.tk = row.1 → g.asof ≤ row.2.1 →
            row.2.1 - g.asof ≤ FUND_FFILL_DAYS → g.asof ≤ f.asof) ∧
    (∀ row ∈ (asof_join_fundamentals trading fnd).rows,
        (row.2.2 = none ↔
          ¬∃ g ∈ fnd.rows, g.tk = row.1 ∧ g.asof ≤ row.2.1 ∧
            row.2.1 - g.asof ≤ FUND_FFILL_DAYS)) ∧
    (fnd.rows = [] → trading ≠ [] →
        (asof_join_fundamentals trading fnd).cols = fundamentalCols ∧
        ∀ row ∈ (asof_join_fundamentals trading fnd).rows,
          row.2.2 = none) ∧
    (fnd.rows ≠ [] → trading ≠ [] →
        (asof_join_fundamentals trading fnd).cols = fnd.cols) := by
  unfold asof_join_fundamentals
  by_cases htr : trading = []
  · rw [if_pos htr]
    refine ⟨by simp, by simp, ?_, ?_⟩
    · intro _ hne; exact absurd htr hne
    · intro _ hne; exact absurd htr hne
  · rw [if_neg htr]
    by_cases hfe : fnd.rows = []
    · rw [if_pos hfe]
      refine ⟨?_, ?_, ?_, ?_⟩
      · intro row hrow f hf
        simp only [List.mem_map] at hrow
        obtain ⟨p, _, hp⟩ := hrow
        rw [← hp] at hf
        cases hf
      · intro row hrow
        simp only [List.mem_map] at hrow
        obtain ⟨p, _, hp⟩ := hrow
        rw [← hp]
        simp [hfe]
      · intro _ _
        exact ⟨rfl, by
          intro row hrow
          simp only [List.mem_map] at hrow
          obtain ⟨p, _, hp⟩ := hrow
          rw [← hp]⟩
      · intro hne _
        exact absurd hfe hne
    · rw [if_neg hfe]
      refine ⟨?_, ?_, ?_, ?_⟩
      · intro row hrow f hf
        simp only [List.mem_map] at hrow
        obtain ⟨p, _, hp⟩ := hrow
        rw [← hp] at hf ⊢
        simp only [] at hf
        obtain ⟨hmem, hmax⟩ := asofPick_some hf
        rw [asofCandidates, List.mem_filter] at hmem
        obtain ⟨hin, hprop⟩ := hmem
        rw [decide_eq_true_eq] at hprop
        refine ⟨hin, hprop.1, hprop.2.1, hprop.2.2, ?_⟩
        intro g hg h1 h2 h3
        exact hmax g (by
          rw [asofCandidates, List.mem_filter]
          exact ⟨hg, by rw [decide_eq_true_eq]; exact ⟨h1, h2, h3⟩⟩)
      · intro row hrow
        simp only [List.mem_map] at hrow
        obtain ⟨p, _, hp⟩ := hrow
        rw [← hp]
        simp only []
        rw [asofPick_none_iff, asofCandidates, List.filter_eq_nil]
        constructor
        · intro h
          rintro ⟨g, hg, h1, h2, h3⟩
          exact absurd (by rw [decide_eq_true_eq]; exact ⟨h1, h2, h3⟩)
            (h g hg)
        · intro h g hg
          rw [decide_eq_true_eq]
          intro hprop
          exact h ⟨g, hg, hprop⟩
      · intro hfe2 _
        exact absurd hfe2 hfe
      · intro _ _
        rfl

/-- Witness for C3: one instrument with a single snapshot at day 0 and
trading days 0, 100 and 130 under the 120-day cap. -/
theorem asof_join_fundamentals_spec_witness :
    ∀ row ∈ (asof_join_fundamentals [(1, 0), (1, 100), (1, 130)]
        ⟨["pe"], [⟨1, 0, [5]⟩]⟩).rows,
      (row.2.2 = none ↔
        ¬∃ g ∈ ([⟨1, 0, [5]⟩] : List FundRow), g.tk = row.1 ∧
          g.asof ≤ row.2.1 ∧ row.2.1 - g.asof ≤ FUND_FFILL_DAYS) :=
  (asof_join_fundamentals_spec [(1, 0), (1, 100), (1, 130)]
    ⟨["pe"], [⟨1, 0, [5]⟩]⟩).2.1


/-- Counterexample for C10: the string `"[1,2,3]"` is a malformed
composite-weight configuration (valid JSON, not an object), yet
`get_composite_weights` raises an `AttributeError` on it instead of
falling back to the default equal split. -/
theorem get_composite_weights_counterexample :
    malformedConfig (.parsed (.arr [])) ∧
    get_composite_weights (.parsed (.arr []))
      = .error .attributeError := by
  constructor
  · rfl
  · rfl

/-- C10 as amended.  `get_composite_weights` falls back to the default
equal split for every string that fails JSON decoding; on every decoded
JSON object it returns exactly the four named weights quality, valuation,
momentum and sentiment, each defaulting to 0.25 when its key is absent;
but on a string that decodes to a JSON non-object it raises an
`AttributeError` rather than falling back. -/
theorem get_composite_weights_amended :
    (get_composite_weights .decodeError = .ok defaultWeights) ∧
    (∀ fields, ∃ w,
        get_composite_weights (.parsed (.obj fields)) = .ok w ∧
        w.map Prod.fst = ["quality", "valuation", "momentum", "sentiment"] ∧
        w.lookup "quality" = some ((fields.lookup "quality").getD
          (.num (1/4)))) ∧
    (∀ v, isJsonObj v = false →
        get_composite_weights (.parsed v) = .error .attributeError) := by
  refine ⟨rfl, ?_, ?_⟩
  · intro fields
    refine ⟨_, rfl, rfl, ?_⟩
    simp [List.lookup]
  · intro v hv
    cases v <;> first | rfl | (exfalso; exact Bool.noConfusion hv)

/-- Witness for C10: the non-object configuration raises, the undecodable
one falls back. -/
theorem get_composite_weights_amended_witness :
    (isJsonObj (.arr []) = false) ∧
    get_composite_weights (.parsed (.arr [])) = .error .attributeError ∧
    get_composite_weights .decodeError = .ok defaultWeights :=
  ⟨rfl, get_composite_weights_amended.2.2 (.arr []) rfl,
    get_composite_weights_amended.1⟩



/-- Dropping from an arithmetic range shifts its start. -/
theorem range'_drop (s n d : Nat) :
    (List.range' s n).drop d = List.range' (s + d) (n - d) := by
  induction d generalizing s n with
  | zero => simp
  | succ d ih =>
    cases n with
    | zero => simp
    | succ m =>
      rw [List.range'_succ, List.drop_succ_cons, ih]
      congr 1 <;> omega

/-- Counterexample for C9: for the three-tree model with per-tree row
contributions 6, 0, 0 and the default `n_trees = 50`, the code's
uncertainty is the deviation of the cumulative predictions 6, 6, 6 -
zero - while the deviation of the last trees evaluated individually is
the square root of 8; `predict(num_iteration=i)` is a cumulative
prediction of the first `i` trees, not an individual tree output. -/
theorem predict_with_std_counterexample :
    (predict_with_std 0 [6, 0, 0] 3 50).2 ≠ lastTreesStd [6, 0, 0] 3 50 := by
  have hlist : (usedIterations 3 50).map (predictAtIteration 0 [6, 0, 0])
      = [6, 6, 6] := by
    norm_num [usedIterations, List.range', predictAtIteration, listSum]
  have hlist2 : (([6, 0, 0] : List Rat).take 3).drop (3 - min 50 3)
      = [6, 0, 0] := by norm_num
  have h1 : (predict_with_std 0 [6, 0, 0] 3 50).2 = Real.sqrt 0 := by
    show listStd ((usedIterations 3 50).map (predictAtIteration 0 [6, 0, 0]))
      = Real.sqrt 0
    rw [hlist]
    unfold listStd
    congr 1
    have : popVariance [6, 6, 6] = 0 := by
      norm_num [popVariance, listMean, listSum]
    rw [this]
    norm_num
  have h2 : lastTreesStd [6, 0, 0] 3 50 = Real.sqrt 8 := by
    unfold lastTreesStd
    rw [hlist2]
    unfold listStd
    congr 1
    have : popVariance [6, 0, 0] = 8 := by
      norm_num [popVariance, listMean, listSum]
    rw [this]
    norm_num
  rw [h1, h2, Real.sqrt_zero]
  intro h
  exact (ne_of_gt (Real.sqrt_pos.mpr (by norm_num))) h.symm

/-- C9 as amended.  The uncertainty `predict_with_std` returns is the
standard deviation of the ensemble's cumulative predictions (the model
truncated after `i` boosting iterations) at the last
`min(min(K, best_iteration) + 1, best_iteration)` iteration counts ending
at `best_iteration`, with `K` defaulting to 50 and capped at the ensemble
size - not the deviation of the last `K` trees evaluated individually. -/
theorem predict_with_std_amended (base : Rat) (trees : List Rat)
    (B K : Nat) (hB : 1 ≤ B) :
    (predict_with_std base trees B K).2 =
      listStd (((List.range' 1 B).map (predictAtIteration base trees)).drop
        (B - min (min K B + 1) B)) := by
  have hidx : usedIterations B K =
      List.range' (1 + (B - min (min K B + 1) B))
        (B - (B - min (min K B + 1) B)) := by
    unfold usedIterations
    have hmB : min K B ≤ B := Nat.min_le_right K B
    rcases Nat.lt_or_ge (min K B) B with hlt | hge
    · rw [Nat.min_eq_left (by omega), Nat.max_eq_right (by omega)]
      congr 1 <;> omega
    · have heq : min K B = B := le_antisymm hmB hge
      rw [heq, Nat.min_eq_right (by omega), Nat.sub_self,
        Nat.max_eq_left (by omega)]
      congr 1 <;> omega
  show listStd _ = _
  congr 1
  rw [← List.map_drop, range'_drop, hidx]

/-- Witness for C9 as amended, at a concrete three-tree model. -/
theorem predict_with_std_amended_witness :
    (1 ≤ 3) ∧
    ((predict_with_std 0 [1, 2, 3] 3 2).2 =
      listStd (((List.range' 1 3).map (predictAtIteration 0 [1, 2, 3])).drop
        (3 - min (min 2 3 + 1) 3))) :=
  ⟨by decide, predict_with_std_amended 0 [1, 2, 3] 3 2 (by decide)⟩


/-- Replacing infinities leaves no infinity behind
(`fundamentals.py` lines 125 and 147). -/
theorem replaceInfWithNan_ne_inf (v : FVal) :
    replaceInfWithNan v ≠ .posInf ∧ replaceInfWithNan v ≠ .negInf := by
  cases v <;> simp [replaceInfWithNan]

/-- C8.  With no sector mapping, `relative_valuation` computes
`pe_vs_sector` and `pb_vs_sector` by the cross-sectional fallback, whose
value on every row with a present metric, at least two same-date values
and a nonzero standard deviation is the negated z-score
`-(value - mean) / std`, so that a lower raw valuation yields a strictly
higher score; a missing metric, an undefined or zero standard deviation
yields a missing value; and in both the sector-ratio path and the
fallback path a zero denominator yields a missing value and no infinity
ever reaches the output. -/
theorem relative_valuation_spec (sqrtFn : Rat → Rat)
    (hpos : ∀ q, 0 ≤ sqrtFn q) :
    (∀ rows, relative_valuation sqrtFn none rows
        = rows.map (fun r => (r, zscoreCol sqrtFn (fun x => x.pe) rows r,
            zscoreCol sqrtFn (fun x => x.pb) rows r))) ∧
    (∀ f rows (r : VRow) (x : Rat), f r = some x →
        2 ≤ (crossVals f rows r.dt).length →
        sqrtFn (sampleVariance (crossVals f rows r.dt)) ≠ 0 →
        zscoreCol sqrtFn f rows r =
          .num (-(x - listMean (crossVals f rows r.dt)) /
            sqrtFn (sampleVariance (crossVals f rows r.dt)))) ∧
    (∀ f rows (r1 r2 : VRow) (x1 x2 : Rat), r1.dt = r2.dt →
        f r1 = some x1 → f r2 = some x2 → x1 < x2 →
        2 ≤ (crossVals f rows r1.dt).length →
        sqrtFn (sampleVariance (crossVals f rows r1.dt)) ≠ 0 →
        ∃ z1 z2, zscoreCol sqrtFn f rows r1 = .num z1 ∧
          zscoreCol sqrtFn f rows r2 = .num z2 ∧ z2 < z1) ∧
    (∀ f rows (r : VRow),
        (f r = none ∨ (crossVals f rows r.dt).length < 2 ∨
          sqrtFn (sampleVariance (crossVals f rows r.dt)) = 0) →
        zscoreCol sqrtFn f rows r = .nan) ∧
    (∀ f rows (r : VRow), zscoreCol sqrtFn f rows r ≠ .posInf ∧
        zscoreCol sqrtFn f rows r ≠ .negInf) ∧
    (∀ f rows (r : VRow), sectorRelCol f rows r ≠ .posInf ∧
        sectorRelCol f rows r ≠ .negInf) ∧
    (∀ f rows (r : VRow) (x m : Rat), f r = some x →
        sectorMeanF f rows r = .num m → m ≠ 0 →
        sectorRelCol f rows r = .num (x / m)) ∧
    (∀ f rows (r : VRow) (x : Rat), f r = some x →
        sectorMeanF f rows r = .num 0 →
        sectorRelCol f rows r = .nan) ∧
    (∀ f rows (r : VRow), (f r = none ∨ sectorMeanF f rows r = .nan) →
        sectorRelCol f rows r = .nan) := by
  have hzform : ∀ f rows (r : VRow) (x : Rat), f r = some x →
      2 ≤ (crossVals f rows r.dt).length →
      sqrtFn (sampleVariance (crossVals f rows r.dt)) ≠ 0 →
      zscoreCol sqrtFn f rows r =
        .num (-(x - listMean (crossVals f rows r.dt)) /
          sqrtFn (sampleVariance (crossVals f rows r.dt))) := by
    intro f rows r x hx hlen hsd
    have hne : crossVals f rows r.dt ≠ [] := by
      intro h
      rw [h] at hlen
      simp at hlen
    unfold zscoreCol zscoreRaw groupMeanF groupStdF toF
    rw [hx, if_neg hne, if_neg (by omega)]
    simp only [fsub, fneg, fdiv, if_neg hsd, replaceInfWithNan]
  have fdiv_nan_right : ∀ v, fdiv v .nan = .nan := by
    intro v; cases v <;> rfl
  have fsub_nan_left : ∀ v, fsub .nan v = .nan := by
    intro v; cases v <;> rfl
  have fdiv_nan_left : ∀ v, fdiv .nan v = .nan := by
    intro v; cases v <;> rfl
  have replace_fdiv_zero : ∀ w, replaceInfWithNan (fdiv w (.num 0)) = .nan := by
    intro w
    cases w with
    | num a =>
      simp only [fdiv, if_pos rfl]
      split_ifs <;> rfl
    | nan => rfl
    | posInf => simp [fdiv, replaceInfWithNan]
    | negInf => simp [fdiv, replaceInfWithNan]
  refine ⟨fun rows => rfl, hzform, ?_, ?_, ?_, ?_, ?_, ?_, ?_⟩
  · intro f rows r1 r2 x1 x2 hdt h1 h2 hlt hlen hsd
    have hs' : 0 < sqrtFn (sampleVariance (crossVals f rows r1.dt)) :=
      lt_of_le_of_ne (hpos _) (Ne.symm hsd)
    have e1 := hzform f rows r1 x1 h1 hlen hsd
    have hlen2 : 2 ≤ (crossVals f rows r2.dt).length := by
      rw [← hdt]; exact hlen
    have hsd2 : sqrtFn (sampleVariance (crossVals f rows r2.dt)) ≠ 0 := by
      rw [← hdt]; exact hsd
    have e2 := hzform f rows r2 x2 h2 hlen2 hsd2
    rw [← hdt] at e2
    refine ⟨_, _, e1, e2, ?_⟩
    rw [div_lt_div_iff_of_pos_right hs']
    linarith
  · intro f rows r hc
    by_cases hlen : (crossVals f rows r.dt).length < 2
    · unfold zscoreCol zscoreRaw groupStdF
      rw [if_pos hlen, fdiv_nan_right]
      rfl
    · rcases hc with hx | hl | hsz
      · unfold zscoreCol zscoreRaw toF
        rw [hx, fsub_nan_left]
        unfold fneg
        unfold groupStdF
        rw [if_neg hlen]
        rfl
      · exact absurd hl hlen
      · unfold zscoreCol zscoreRaw groupStdF
        rw [if_neg hlen, hsz]
        exact replace_fdiv_zero _
  · intro f rows r
    exact replaceInfWithNan_ne_inf (zscoreRaw sqrtFn f rows r)
  · intro f rows r
    exact replaceInfWithNan_ne_inf (fdiv (toF (f r)) (sectorMeanF f rows r))
  · intro f rows r x m hx hm hm0
    unfold sectorRelCol toF
    rw [hx, hm]
    simp only [fdiv, if_neg hm0]
    rfl
  · intro f rows r x hx hm
    unfold sectorRelCol toF
    rw [hx, hm]
    exact replace_fdiv_zero _
  · intro f rows r hc
    unfold sectorRelCol toF
    rcases hc with hx | hm
    · rw [hx]
      rw [fdiv_nan_left]
      rfl
    · rw [hm, fdiv_nan_right]
      rfl

/-- Witness for C8: a missing metric value yields a missing score. -/
theorem relative_valuation_spec_witness :
    zscoreCol (fun q => |q|) (fun x => x.pe) []
      ⟨0, 0, none, none, none⟩ = .nan :=
  (relative_valuation_spec (fun q => |q|) (fun q => abs_nonneg q)).2.2.2.1
    (fun x => x.pe) [] ⟨0, 0, none, none, none⟩ (Or.inl rfl)


/-- A sum of naturals vanishes exactly when every term does. -/
theorem natSum_eq_zero_iff (l : List Nat) : l.sum = 0 ↔ ∀ x ∈ l, x = 0 := by
  induction l with
  | nil => simp
  | cons a l ih => simp [List.sum_cons, Nat.add_eq_zero, ih]

/-- Counterexample for C6: with one news item on day 10 and a spine of
days 10 and 11, day 11 has zero news after deduplication yet its
`burst_3d` is 1, not 0 - the burst is a trailing sum over the window,
not a per-day count. -/
theorem aggregate_news_sentiment_counterexample :
    headlineCount [⟨1, 10, 0, 0, 0⟩] 1 11 = 0 ∧
    ((aggregate_news_sentiment [⟨1, 10, 0, 0, 0⟩]
        [(1, 10), (1, 11)]).getD 1 default).day = 11 ∧
    ((aggregate_news_sentiment [⟨1, 10, 0, 0, 0⟩]
        [(1, 10), (1, 11)]).getD 1 default).burst3 = 1 := by
  refine ⟨by decide, by decide, by decide⟩

/-- C6 as amended.  `aggregate_news_sentiment` deduplicates news by
`(instrument, url)` keeping the first occurrence; every trading day with
zero news after deduplication gets sentiment 0.0, never missing; and
`burst_3d` and `burst_7d` are trailing sums of daily deduplicated
headline counts over the last 3 and 7 spine rows including the current
day - so a burst is 0 exactly when its whole trailing window has zero
news, not merely when the day itself does - and with 1, 2, 3, 3, ...
headlines per day, `burst_3d` on day 3 is 6 and `burst_7d` on day 7 is
18, a duplicated url counting once. -/
theorem aggregate_news_sentiment_amended :
    (∀ news spine, ∀ row ∈ aggregate_news_sentiment news spine,
        headlineCount news row.tk row.day = 0 → row.sent = 0) ∧
    (∀ news s w j, burst news s w j = 0 ↔
        ∀ p ∈ spineWindow s w j, headlineCount news p.1 p.2 = 0) ∧
    ((aggregate_news_sentiment exampleNews exampleSpine).getD 2
        default).burst3 = 6 ∧
    ((aggregate_news_sentiment exampleNews exampleSpine).getD 6
        default).burst7 = 18 ∧
    headlineCount exampleNews 1 1 = 1 := by
  refine ⟨?_, ?_, by decide, by decide, by decide⟩
  · intro news spine row hrow hcount
    unfold aggregate_news_sentiment at hrow
    split at hrow
    · cases hrow
    · split at hrow
      · simp only [List.mem_map] at hrow
        obtain ⟨p, _, hp⟩ := hrow
        rw [← hp]
      · simp only [List.mem_map] at hrow
        obtain ⟨j, _, hj⟩ := hrow
        rw [← hj] at hcount ⊢
        simp only [] at hcount ⊢
        have hz : dailyNews news ((spine.insertionSort tdLE).getD j (0, 0)).1
            ((spine.insertionSort tdLE).getD j (0, 0)).2 = [] :=
          List.length_eq_zero.mp hcount
        rw [sentMeanOpt, if_pos hz]
        rfl
  · intro news s w j
    unfold burst
    rw [natSum_eq_zero_iff]
    constructor
    · intro h p hp
      exact h _ (List.mem_map_of_mem _ hp)
    · intro h x hx
      obtain ⟨p, hp, hpx⟩ := List.mem_map.mp hx
      rw [← hpx]
      exact h p hp

/-- Witness for C6 as amended: the burst-window characterization at the
example input. -/
theorem aggregate_news_sentiment_amended_witness :
    headlineCount exampleNews 1 11 = 0 ∧
    (burst exampleNews (exampleSpine.insertionSort tdLE) 3 2 = 0 ↔
      ∀ p ∈ spineWindow (exampleSpine.insertionSort tdLE) 3 2,
        headlineCount exampleNews p.1 p.2 = 0) :=
  ⟨by decide,
    aggregate_news_sentiment_amended.2.1 exampleNews
      (exampleSpine.insertionSort tdLE) 3 2⟩


/-- Two mutually exclusive predicates count at most the whole list. -/
theorem countP_add_le {α : Type} (p q : α → Bool) (l : List α)
    (h : ∀ a ∈ l, ¬(p a = true ∧ q a = true)) :
    l.countP p + l.countP q ≤ l.length := by
  induction l with
  | nil => simp
  | cons a l ih =>
    rw [List.countP_cons, List.countP_cons, List.length_cons]
    have h1 := ih fun x hx => h x (List.mem_cons_of_mem _ hx)
    have h2 := h a (List.mem_cons_self _ _)
    by_cases hp : p a <;> by_cases hq : q a <;>
      simp [hp, hq] at h2 ⊢ <;> omega

/-- A percentile rank of a member of the cross-section lies in the unit
interval. -/
theorem rankPct_bounds (vals : List Rat) (x : Rat) (hx : x ∈ vals) :
    0 ≤ rankPct vals x ∧ rankPct vals x ≤ 1 := by
  have hlen : 0 < vals.length := List.length_pos.mpr (List.ne_nil_of_mem hx)
  have hcEq : 1 ≤ vals.countP fun v => decide (v = x) := by
    rw [Nat.succ_le_iff, List.countP_pos_iff]
    exact ⟨x, hx, by simp⟩
  have hsum : (vals.countP fun v => decide (v < x)) +
      (vals.countP fun v => decide (v = x)) ≤ vals.length := by
    apply countP_add_le
    intro a _
    simp only [decide_eq_true_eq, not_and]
    intro h1 h2
    rw [h2] at h1
    exact absurd h1 (lt_irrefl x)
  unfold rankPct
  have hlenQ : (0 : Rat) < vals.length := by exact_mod_cast hlen
  constructor
  · apply div_nonneg _ hlenQ.le
    have c1 : (0 : Rat) ≤ (vals.countP fun v => decide (v < x)) := by
      exact_mod_cast Nat.zero_le _
    have c2 : (0 : Rat) ≤ (vals.countP fun v => decide (v = x)) := by
      exact_mod_cast Nat.zero_le _
    linarith
  · rw [div_le_one hlenQ]
    have c1 : ((vals.countP fun v => decide (v < x)) : Rat) +
        ((vals.countP fun v => decide (v = x)) : Rat) ≤
        (vals.length : Rat) := by exact_mod_cast hsum
    have c2 : (1 : Rat) ≤ ((vals.countP fun v => decide (v = x)) : Rat) := by
      exact_mod_cast hcEq
    linarith

/-- The code's scaling agrees with the specification scaling on every
row of the frame: the clip is a no-op and a missing value scales to the
neutral 0.5. -/
theorem scale01_spec (rows : List CRow) (g : CRow → Option Rat) (r : CRow)
    (hr : r ∈ rows) :
    scale01 rows g r = specScale rows g r ∧
    0 ≤ scale01 rows g r ∧ scale01 rows g r ≤ 1 ∧
    (g r = none → scale01 rows g r = 1 / 2) := by
  unfold scale01 specScale
  cases hg : g r with
  | none =>
    simp only []
    rw [max_eq_right (by norm_num), min_eq_right (by norm_num)]
    refine ⟨rfl, by norm_num, by norm_num, fun _ => rfl⟩
  | some x =>
    have hmem : x ∈ sameDateVals rows g r.dt := by
      unfold sameDateVals
      exact List.mem_filterMap.mpr ⟨r,
        List.mem_filter.mpr ⟨hr, by simp⟩, hg⟩
    obtain ⟨hb0, hb1⟩ := rankPct_bounds (sameDateVals rows g r.dt) x hmem
    simp only []
    rw [max_eq_right hb0, min_eq_right hb1]
    refine ⟨rfl, hb0, hb1, fun h => ?_⟩
    cases h

/-- Percentile-rank scaling is invariant under the `rsi_14 / 100`
normalization, so the momentum dimension scales its raw source column. -/
theorem scale01_rsi_invariant (rows : List CRow) (r : CRow) :
    scale01 rows rsiGetter r = scale01 rows (fun x => getVal x "rsi_14") r := by
  have hdiv_eq : ∀ a b : Rat, a / 100 = b / 100 ↔ a = b := by
    intro a b
    constructor
    · intro h
      have h2 : a / 100 * 100 = b / 100 * 100 := by rw [h]
      rwa [div_mul_cancel₀ _ (by norm_num : (100 : Rat) ≠ 0),
        div_mul_cancel₀ _ (by norm_num : (100 : Rat) ≠ 0)] at h2
    · intro h
      rw [h]
  have hvals : sameDateVals rows rsiGetter r.dt
      = (sameDateVals rows (fun y => getVal y "rsi_14") r.dt).map
        (fun v => v / 100) := by
    unfold sameDateVals rsiGetter
    exact (List.map_filterMap _ _ _).symm
  cases hg : getVal r "rsi_14" with
  | none =>
    have hx : rsiGetter r = none := by unfold rsiGetter; rw [hg]; rfl
    simp only [scale01, hx, hg]
  | some x =>
    have hx : rsiGetter r = some (x / 100) := by
      unfold rsiGetter; rw [hg]; rfl
    simp only [scale01, hx, hg]
    congr 1
    congr 1
    rw [hvals]
    unfold rankPct
    rw [List.countP_map, List.countP_map, List.length_map]
    have e1 : ((sameDateVals rows (fun y => getVal y "rsi_14") r.dt).countP
        ((fun v => decide (v < x / 100)) ∘ fun v => v / 100))
        = (sameDateVals rows (fun y => getVal y "rsi_14") r.dt).countP
          (fun v => decide (v < x)) := by
      apply List.countP_congr
      intro a _
      simp only [Function.comp_apply, decide_eq_true_eq]
      constructor
      · intro h
        exact (div_lt_div_iff_of_pos_right (by norm_num : (0:Rat) < 100)).mp h
      · intro h
        exact (div_lt_div_iff_of_pos_right (by norm_num : (0:Rat) < 100)).mpr h
    have e2 : ((sameDateVals rows (fun y => getVal y "rsi_14") r.dt).countP
        ((fun v => decide (v = x / 100)) ∘ fun v => v / 100))
        = (sameDateVals rows (fun y => getVal y "rsi_14") r.dt).countP
          (fun v => decide (v = x)) := by
      apply List.countP_congr
      intro a _
      simp only [Function.comp_apply, decide_eq_true_eq]
      exact hdiv_eq a x
    rw [e1, e2]


/-- C7.  Each of the four sub-dimension scores is the mean of its
available source columns scaled by same-date cross-sectional percentile
rank into the unit interval with missing values mapped to the neutral
0.5 (the clip being a no-op); when a dimension has no source column at
all its score is exactly 0.5 for every row; and the momentum dimension's
normalized RSI scales identically to the raw `rsi_14` column. -/
theorem composite_scores_spec :
    (∀ (t : CTable) (cands : List String) (r : CRow),
        presentCols t.cols cands = [] → dimensionScore t cands r = 1 / 2) ∧
    (∀ (t : CTable) (r : CRow), "rsi_14" ∉ t.cols →
        presentCols t.cols momentumCands = [] →
        momentum_score t r = 1 / 2) ∧
    (∀ (rows : List CRow) (g : CRow → Option Rat) (r : CRow), r ∈ rows →
        scale01 rows g r = specScale rows g r ∧
        0 ≤ scale01 rows g r ∧ scale01 rows g r ≤ 1 ∧
        (g r = none → scale01 rows g r = 1 / 2)) ∧
    (∀ (t : CTable) (cands : List String) (r : CRow),
        presentCols t.cols cands ≠ [] →
        dimensionScore t cands r =
          listSum ((presentCols t.cols cands).map fun c =>
            scale01 t.rows (fun x => getVal x c) r) /
            ((presentCols t.cols cands).length : Rat)) ∧
    (∀ (rows : List CRow) (r : CRow),
        scale01 rows rsiGetter r
          = scale01 rows (fun x => getVal x "rsi_14") r) ∧
    (∀ (t : CTable) (r : CRow), "rsi_14" ∈ t.cols →
        momentum_score t r =
          listSum ((presentCols t.cols momentumCands).map (fun c =>
              scale01 t.rows (fun x => getVal x c) r)
            ++ [scale01 t.rows (fun x => getVal x "rsi_14") r]) /
          (((presentCols t.cols momentumCands).length : Rat) + 1)) := by
  refine ⟨?_, ?_, scale01_spec, ?_, scale01_rsi_invariant, ?_⟩
  · intro t cands r h
    unfold dimensionScore
    rw [if_pos h]
  · intro t r h1 h2
    unfold momentum_score
    rw [if_neg h1]
    unfold dimensionScore
    rw [if_pos h2]
  · intro t cands r h
    unfold dimensionScore
    rw [if_neg h]
  · intro t r h
    unfold momentum_score
    rw [if_pos h, scale01_rsi_invariant]

/-- Witness for C7: a frame with no quality source column gives the
neutral quality score on a concrete row. -/
theorem composite_scores_spec_witness :
    presentCols ["dt"] qualityCands = [] ∧
    dimensionScore ⟨["dt"], []⟩ qualityCands ⟨0, 0, []⟩ = 1 / 2 :=
  ⟨by decide,
    composite_scores_spec.1 ⟨["dt"], []⟩ qualityCands ⟨0, 0, []⟩ (by decide)⟩


/-- A five-row frame whose column `x` is missing in three rows: missing
rate 3/5, above the Python default threshold 0.5 yet not above 0.8. -/
def exampleDirty : FTable :=
  { cols := ["ticker", "dt", "x"],
    rows := [[some 1, some 1, none],
             [some 1, some 2, none],
             [some 1, some 3, none],
             [some 1, some 4, some 1],
             [some 1, some 5, some 2]] }

/-- The fill stage never changes the column schema. -/
theorem fill_nans_cols (t : FTable) : (fill_nans t).cols = t.cols := by
  unfold fill_nans
  split <;> rfl

/-- Counterexample for C5: the default threshold of `clean_features` is
0.5, not 0.8 - a column with missing rate 3/5, which does not exceed
0.8, is dropped by the default call.  (The pipeline entry point
`compute_features.py` line 100 passes `nan_threshold=0.8` explicitly.) -/
theorem clean_features_counterexample :
    "x" ∈ exampleDirty.cols ∧
    missFrac exampleDirty "x" = 3 / 5 ∧
    ¬(missFrac exampleDirty "x" > 4 / 5) ∧
    "x" ∉ (clean_features_default exampleDirty).cols := by
  have hcnt : missingCount exampleDirty "x" = 3 := by decide
  have hlen : exampleDirty.rows.length = 5 := by decide
  have hfrac : missFrac exampleDirty "x" = 3 / 5 := by
    rw [missFrac, hcnt, hlen]
    norm_num
  refine ⟨by decide, hfrac, by rw [hfrac]; norm_num, ?_⟩
  unfold clean_features_default clean_features
  rw [if_neg (by decide : ¬(exampleDirty.rows = []))]
  intro h
  rw [fill_nans_cols] at h
  simp only [dropCols] at h
  have h2 := (List.mem_filter.mp h).2
  rw [decide_eq_true_eq] at h2
  unfold keepCol at h2
  rcases h2 with hk | hgt
  · exact absurd hk (by decide)
  · apply hgt
    rw [hfrac]
    norm_num

/-- C5 as amended.  `clean_features`, at any threshold - its own default
being 0.5, while the pipeline calls it with 0.8 - keeps exactly the key
columns and the columns whose missing rate does not exceed the
threshold; the key columns `ticker` and `dt` are never dropped, and both
fill stages leave key cells untouched; and after the per-instrument
forward-fill, backward-fill and zero-fill, every surviving non-key cell
of every row is non-missing. -/
theorem clean_features_amended :
    (∀ (θ : Rat) (t : FTable) (c : String), t.rows ≠ [] →
        (c ∈ (clean_features θ t).cols ↔
          c ∈ t.cols ∧ (c ∈ keyCols ∨ ¬(missFrac t c > θ)))) ∧
    (∀ (θ : Rat) (t : FTable) (c : String), t.rows ≠ [] → c ∈ keyCols →
        c ∈ t.cols → c ∈ (clean_features θ t).cols) ∧
    (∀ (cols : List String) (rows : List (List (Option Rat))) (i p : Nat),
        i < rows.length → p < cols.length → cols.getD p "" ∈ keyCols →
        ((fillna0 cols rows).getD i []).getD p none
          = (rows.getD i []).getD p none) ∧
    (∀ (cols : List String) (g : List (List (Option Rat))) (i p : Nat),
        i < g.length → p < cols.length → cols.getD p "" ∈ keyCols →
        ((fillGroup cols g).getD i []).getD p none
          = (g.getD i []).getD p none) ∧
    (∀ (θ : Rat) (t : FTable), ∀ row ∈ (clean_features θ t).rows,
        ∀ p : Nat, p < (clean_features θ t).cols.length →
        (clean_features θ t).cols.getD p "" ∉ keyCols →
        row.getD p none ≠ none) := by
  have hmemcols : ∀ (θ : Rat) (t : FTable) (c : String), t.rows ≠ [] →
      (c ∈ (clean_features θ t).cols ↔
        c ∈ t.cols ∧ (c ∈ keyCols ∨ ¬(missFrac t c > θ))) := by
    intro θ t c hne
    unfold clean_features
    rw [if_neg hne, fill_nans_cols]
    simp only [dropCols]
    rw [List.mem_filter, decide_eq_true_eq]
    unfold keepCol
    exact Iff.rfl
  refine ⟨hmemcols, ?_, ?_, ?_, ?_⟩
  · intro θ t c hne hk hc
    exact (hmemcols θ t c hne).mpr ⟨hc, Or.inl hk⟩
  · intro cols rows i p hi hp hkey
    unfold fillna0
    rw [List.getD_eq_getElem _ _ (by simp [hi] : i < (rows.map _).length)]
    rw [List.getElem_map]
    rw [List.getD_eq_getElem _ _
      (by simp [hp] : p < ((List.range cols.length).map _).length)]
    rw [List.getElem_map, List.getElem_range, if_pos hkey]
    rw [List.getD_eq_getElem _ _ hi]
  · intro cols g i p hi hp hkey
    unfold fillGroup
    rw [List.getD_eq_getElem _ _
      (by simp [hi] : i < ((List.range g.length).map _).length)]
    rw [List.getElem_map, List.getElem_range]
    rw [List.getD_eq_getElem _ _
      (by simp [hp] : p < ((List.range cols.length).map _).length)]
    rw [List.getElem_map, List.getElem_range, if_pos hkey]
  · intro θ t row hrow p hp hnk
    unfold clean_features at hrow hp hnk
    by_cases hne : t.rows = []
    · rw [if_pos hne] at hrow
      rw [hne] at hrow
      cases hrow
    · rw [if_neg hne] at hrow hp hnk
      rw [fill_nans_cols] at hp hnk
      unfold fill_nans at hrow
      split at hrow
      · rename_i hfc
        exfalso
        apply hnk
        have hmem : (dropCols θ t).cols.getD p "" ∈ (dropCols θ t).cols := by
          rw [List.getD_eq_getElem _ _ hp]
          exact List.getElem_mem _
        by_contra hcontra
        have : (dropCols θ t).cols.getD p ""
            ∈ (dropCols θ t).cols.filter (fun c => decide (c ∉ keyCols)) := by
          rw [List.mem_filter]
          exact ⟨hmem, by rw [decide_eq_true_eq]; exact hcontra⟩
        rw [hfc] at this
        cases this
      · simp only [] at hrow
        unfold fillna0 at hrow
        rw [List.mem_map] at hrow
        obtain ⟨src, _, hsrc⟩ := hrow
        rw [← hsrc]
        rw [List.getD_eq_getElem _ _
          (by simp [hp] : p < ((List.range (dropCols θ t).cols.length).map
            _).length)]
        rw [List.getElem_map, List.getElem_range, if_neg hnk]
        simp

/-- Witness for C5 as amended: the key column survives the default
cleaning of the concrete dirty frame. -/
theorem clean_features_amended_witness :
    (exampleDirty.rows ≠ []) ∧
    ("ticker" ∈ keyCols) ∧
    ("ticker" ∈ exampleDirty.cols) ∧
    "ticker" ∈ (clean_features (1 / 2) exampleDirty).cols :=
  ⟨by decide, by decide, by decide,
    clean_features_amended.2.1 (1 / 2) exampleDirty "ticker" (by decide)
      (by decide) (by decide)⟩

end SRT
